import Mathlib

set_option maxHeartbeats 1000000

/-!
Shallow embedding of the threeSF repository (files src/constants.rs, src/types.rs,
src/ffg.rs, src/fork_choice.rs, src/node.rs).

Conventions of the embedding:
* `HashMap<Hash, Block>` is modelled as an association list `List (Hash × Block)`;
  `HashMap<ValidatorId, Vote>` and the justification cache likewise.  Lookup finds
  the first entry with the given key; all maps built by the code keep their keys
  unique, so this is faithful; where an iteration order of a Rust `HashMap` is
  unspecified, the list order is one such order and theorems are stated so that
  the proved property does not depend on it.
* Every unbounded `while`/recursion of the source takes an explicit fuel argument
  and returns an `Option`: `none` models a panic (`unwrap`/`expect` failure) or
  non-termination of the corresponding loop.  The canonical wrapper functions
  instantiate the fuel with a bound (`view.blocks.length + 1` for ancestry and
  tree walks, `view.votes.length + 1` for the justification recursion) that is
  sufficient whenever the Rust computation terminates: a terminating ancestry
  walk does at most one lookup per block of the view, and along any terminating
  (or panicking) chain of recursive `is_justified` calls each level consumes a
  distinct vote of the (fixed) view, so the recursion depth is at most the number
  of votes plus one.
* Machine integers (`u64`, `usize`) are modelled as `Nat`; the only subtraction
  performed by the source is `saturating_sub`, which is exactly `Nat` subtraction.
-/

abbrev Hash := String
abbrev ValidatorId := Nat

/-- `Transaction` from src/types.rs. -/
structure Transaction where
  id : Nat
deriving DecidableEq

/-- `Block` from src/types.rs. -/
structure Block where
  hash : Hash
  parent_hash : Hash
  slot : Nat
  proposer_id : ValidatorId
  transactions : List Transaction
deriving DecidableEq

/-- `Checkpoint` from src/types.rs: a `(block_hash, slot)` pair. -/
structure Checkpoint where
  block_hash : Hash
  slot : Nat
deriving DecidableEq

/-- `Vote` from src/types.rs. -/
structure Vote where
  chain_head_hash : Hash
  source : Checkpoint
  target : Checkpoint
  slot : Nat
  validator_id : ValidatorId
deriving DecidableEq

/-- `View` from src/types.rs: block map plus an ordered vote list. -/
structure View where
  blocks : List (Hash × Block)
  votes : List Vote
deriving DecidableEq

/-- `Proposal` from src/types.rs. -/
structure Proposal where
  chain_head_hash : Hash
  view : View
  slot : Nat
  proposer_id : ValidatorId
deriving DecidableEq

/-- `ValidatorStatus` from src/types.rs. -/
inductive ValidatorStatus where
  | Active
  | Inactive
  | Adversary
deriving DecidableEq

/-- `Validator` from src/types.rs. -/
structure Validator where
  id : ValidatorId
  status : ValidatorStatus
deriving DecidableEq

/-- `DELTA` from src/constants.rs. -/
def DELTA : Nat := 1

/-- `KAPPA` from src/constants.rs. -/
def KAPPA : Nat := 4

/-- `ETA` from src/constants.rs. -/
def ETA : Nat := 5

/-- `Block::genesis` from src/types.rs. -/
def Block.genesis : Block :=
  { hash := "genesis_hash", parent_hash := "null", slot := 0, proposer_id := 0,
    transactions := [] }

/-- `view.blocks.get(h)`: association-list lookup (first entry with the key). -/
def lookupBlock : List (Hash × Block) → Hash → Option Block
  | [], _ => none
  | (k, b) :: rest, h => if k = h then some b else lookupBlock rest h

/-- The loop of `Block::is_ancestor_of` from src/types.rs, with fuel.
`selfHash` is `self.hash`, the second hash argument is the running
`current_hash` (started at `other.parent_hash`).  `none` models the
`expect` panic on a missing parent, or running out of fuel. -/
def isAncestorOfF (view : View) (selfHash : Hash) : Nat → Hash → Option Bool
  | 0, currentHash =>
    if currentHash = "null" then some false
    else if currentHash = selfHash then some true
    else none
  | f + 1, currentHash =>
    if currentHash = "null" then some false
    else if currentHash = selfHash then some true
    else
      match lookupBlock view.blocks currentHash with
      | none => none
      | some parent_block => isAncestorOfF view selfHash f parent_block.parent_hash

/-- `Block::is_ancestor_of` from src/types.rs.  The fuel
`view.blocks.length + 1` is enough for every terminating run of the
Rust loop, which performs at most one lookup per block of the view. -/
def Block.is_ancestor_of (self other : Block) (view : View) : Option Bool :=
  isAncestorOfF view self.hash (view.blocks.length + 1) other.parent_hash

/-- The justification cache of src/node.rs (`HashMap<Checkpoint, bool>`). -/
abbrev Cache := List (Checkpoint × Bool)

/-- `justification_cache.get(c)`. -/
def lookupCache : Cache → Checkpoint → Option Bool
  | [], _ => none
  | (cp, b) :: rest, c => if cp = c then some b else lookupCache rest c

/-- `justification_cache.insert(c, b)` (replace the entry if present). -/
def insertCache : Cache → Checkpoint → Bool → Cache
  | [], c, b => [(c, b)]
  | (cp, bb) :: rest, c, b =>
    if cp = c then (c, b) :: rest else (cp, bb) :: insertCache rest c b

/-- The body of the per-vote check of `is_justified` (src/ffg.rs) after the
source checkpoint has been found justified: the three `unwrap`ed block
lookups followed by the short-circuited ancestry conjunction
`source_block.is_ancestor_of(checkpoint_block) && checkpoint_block.is_ancestor_of(target_block)`.
`none` models a panic. -/
def ancestryChecks (view : View) (checkpoint : Checkpoint) (vote : Vote) : Option Bool :=
  match lookupBlock view.blocks vote.source.block_hash with
  | none => none
  | some source_block =>
    match lookupBlock view.blocks vote.target.block_hash with
    | none => none
    | some target_block =>
      match lookupBlock view.blocks checkpoint.block_hash with
      | none => none
      | some checkpoint_block =>
        match Block.is_ancestor_of source_block checkpoint_block view with
        | none => none
        | some false => some false
        | some true => Block.is_ancestor_of checkpoint_block target_block view

/-- One iteration of the vote loop of `is_justified` (src/ffg.rs), cache-free:
`some true` iff the vote contributes its validator to `supermajority_voters`,
`none` if the iteration panics.  `j` is the recursive call on the vote's source. -/
def voteCounted? (j : Checkpoint → Option Bool) (view : View) (checkpoint : Checkpoint)
    (vote : Vote) : Option Bool :=
  if vote.target.slot = checkpoint.slot then
    match j vote.source with
    | none => none
    | some false => some false
    | some true => ancestryChecks view checkpoint vote
  else some false

/-- The vote loop of `is_justified` (src/ffg.rs), cache-free: the list of
validator ids inserted into `supermajority_voters`, in vote order. -/
def supVotersGo (j : Checkpoint → Option Bool) (checkpoint : Checkpoint) (view : View) :
    List Vote → Option (List ValidatorId)
  | [] => some []
  | vote :: rest =>
    match voteCounted? j view checkpoint vote with
    | none => none
    | some true => (supVotersGo j checkpoint view rest).map (fun ids => vote.validator_id :: ids)
    | some false => supVotersGo j checkpoint view rest

/-- `is_justified` from src/ffg.rs specialised to a fresh cache: since the cache
is pure memoization of a function of the (fixed) view, dropping it does not
change any returned value; this cache-free form is related to the faithful
cached form `is_justifiedC` by the lemmas below.  The fuel bounds the depth of
the recursion on vote sources. -/
def is_justifiedF : Nat → Checkpoint → View → Option Bool
  | 0, checkpoint, _ =>
    if checkpoint.block_hash = "genesis_hash" ∧ checkpoint.slot = 0 then some true
    else none
  | f + 1, checkpoint, view =>
    if checkpoint.block_hash = "genesis_hash" ∧ checkpoint.slot = 0 then some true
    else
      (supVotersGo (fun s => is_justifiedF f s view) checkpoint view view.votes).map
        (fun ids => decide (2 * 100 / 3 < ids.dedup.length))

/-- One iteration of the vote loop of `is_justified` (src/ffg.rs), threading the
memoization cache through the recursive call `j` on the vote's source. -/
def voteCountedC (j : Checkpoint → Cache → Option (Bool × Cache)) (view : View)
    (checkpoint : Checkpoint) (vote : Vote) (cache : Cache) : Option (Bool × Cache) :=
  if vote.target.slot = checkpoint.slot then
    match j vote.source cache with
    | none => none
    | some (false, cache₁) => some (false, cache₁)
    | some (true, cache₁) =>
      match ancestryChecks view checkpoint vote with
      | none => none
      | some r => some (r, cache₁)
  else some (false, cache)

/-- The vote loop of `is_justified` (src/ffg.rs) with the cache threaded through. -/
def supVotersGoC (j : Checkpoint → Cache → Option (Bool × Cache)) (checkpoint : Checkpoint)
    (view : View) : List Vote → Cache → Option (List ValidatorId × Cache)
  | [], cache => some ([], cache)
  | vote :: rest, cache =>
    match voteCountedC j view checkpoint vote cache with
    | none => none
    | some (true, cache₁) =>
      (supVotersGoC j checkpoint view rest cache₁).map
        (fun p => (vote.validator_id :: p.1, p.2))
    | some (false, cache₁) => supVotersGoC j checkpoint view rest cache₁

/-- `is_justified` from src/ffg.rs, faithful: cache lookup first, then the
genesis base case (which inserts into the cache), then the vote loop with the
recursion on sources, then the supermajority test `count > 2 * n / 3` with the
hard-coded `n = 100`, whose result is inserted into the cache. -/
def is_justifiedC : Nat → Checkpoint → View → Cache → Option (Bool × Cache)
  | 0, checkpoint, _, cache =>
    match lookupCache cache checkpoint with
    | some b => some (b, cache)
    | none =>
      if checkpoint.block_hash = "genesis_hash" ∧ checkpoint.slot = 0 then
        some (true, insertCache cache checkpoint true)
      else none
  | f + 1, checkpoint, view, cache =>
    match lookupCache cache checkpoint with
    | some b => some (b, cache)
    | none =>
      if checkpoint.block_hash = "genesis_hash" ∧ checkpoint.slot = 0 then
        some (true, insertCache cache checkpoint true)
      else
        match supVotersGoC (fun s ch => is_justifiedC f s view ch) checkpoint view
            view.votes cache with
        | none => none
        | some (ids, cache₁) =>
          some (decide (2 * 100 / 3 < ids.dedup.length),
                insertCache cache₁ checkpoint (decide (2 * 100 / 3 < ids.dedup.length)))

/-- `is_justified(checkpoint, view, cache)` from src/ffg.rs: the canonical
instantiation of the fuel, sufficient for every terminating or panicking run
of the Rust recursion (each level of a terminating recursion consumes a
distinct vote of the view). -/
def is_justified (checkpoint : Checkpoint) (view : View) (cache : Cache) :
    Option (Bool × Cache) :=
  is_justifiedC (view.votes.length + 1) checkpoint view cache

/-- The filter-and-maximum of `greatest_justified_checkpoint` (src/ffg.rs):
the justified source checkpoints of the view's votes, in vote order, with the
cache threaded through the `is_justified` calls. -/
def gjcGo (j : Checkpoint → Cache → Option (Bool × Cache)) :
    List Vote → Cache → Option (List Checkpoint × Cache)
  | [], cache => some ([], cache)
  | v :: rest, cache =>
    match j v.source cache with
    | none => none
    | some (true, cache₁) => (gjcGo j rest cache₁).map (fun p => (v.source :: p.1, p.2))
    | some (false, cache₁) => gjcGo j rest cache₁

/-- `Iterator::max` under the slot-only `Ord` of `Checkpoint`: the last maximal
element, `none` on an empty iterator. -/
def maxCheckpointLast : List Checkpoint → Option Checkpoint
  | [] => none
  | c :: rest =>
    match maxCheckpointLast rest with
    | none => some c
    | some m => some (if m.slot < c.slot then c else m)

/-- `greatest_justified_checkpoint` from src/ffg.rs. -/
def greatest_justified_checkpoint (view : View) (cache : Cache) :
    Option (Checkpoint × Cache) :=
  match gjcGo (fun s ch => is_justifiedC (view.votes.length + 1) s view ch)
      view.votes cache with
  | none => none
  | some (l, cache₁) =>
    some ((maxCheckpointLast l).getD { block_hash := "genesis_hash", slot := 0 }, cache₁)

/-- `latest_votes.get(&vote.validator_id)` in `filter_rlmd_votes`. -/
def lookupVal : List (ValidatorId × Vote) → ValidatorId → Option Vote
  | [], _ => none
  | (k, w) :: rest, vid => if k = vid then some w else lookupVal rest vid

/-- `latest_votes.insert(vid, vote)` when the key is already present. -/
def updateLatest : List (ValidatorId × Vote) → ValidatorId → Vote → List (ValidatorId × Vote)
  | [], vid, v => [(vid, v)]
  | (k, w) :: rest, vid, v =>
    if k = vid then (vid, v) :: rest else (k, w) :: updateLatest rest vid v

/-- One iteration of the vote loop of `filter_rlmd_votes` (src/fork_choice.rs):
skip expired votes, keep the per-validator vote of greatest slot, record
equivocators (same slot, different chain head). -/
def filterStep (current_slot : Nat) (st : List (ValidatorId × Vote) × List ValidatorId)
    (vote : Vote) : List (ValidatorId × Vote) × List ValidatorId :=
  if vote.slot < current_slot - ETA then st
  else
    match lookupVal st.1 vote.validator_id with
    | some latest =>
      if latest.slot < vote.slot then (updateLatest st.1 vote.validator_id vote, st.2)
      else if vote.slot = latest.slot ∧ vote.chain_head_hash ≠ latest.chain_head_hash then
        (st.1, vote.validator_id :: st.2)
      else st
    | none => ((vote.validator_id, vote) :: st.1, st.2)

/-- `filter_rlmd_votes` from src/fork_choice.rs: fold the vote loop, then drop
the equivocators from the resulting map. -/
def filter_rlmd_votes (view : View) (current_slot : Nat) : List (ValidatorId × Vote) :=
  let st := view.votes.foldl (filterStep current_slot) ([], [])
  st.1.filter (fun p => decide (p.1 ∉ st.2))

/-- The per-vote weighing predicate of `ghost` (src/fork_choice.rs), counting a
filtered vote towards `child`: votes for unknown blocks are ignored, otherwise
the vote counts iff it names the child or a descendant of the child.  `none`
models a panic inside the ancestry walk. -/
def countVotesFor (view : View) (child : Block) : List Vote → Option Nat
  | [] => some 0
  | v :: rest =>
    match lookupBlock view.blocks v.chain_head_hash with
    | none => countVotesFor view child rest
    | some vote_block =>
      if child.hash = vote_block.hash then (countVotesFor view child rest).map (· + 1)
      else
        match Block.is_ancestor_of child vote_block view with
        | none => none
        | some true => (countVotesFor view child rest).map (· + 1)
        | some false => countVotesFor view child rest

/-- The weights of all children, in child order (`max_by_key` evaluates its key
for every element). -/
def weighChildren (view : View) (votesList : List Vote) :
    List Block → Option (List (Block × Nat))
  | [] => some []
  | c :: rest =>
    match countVotesFor view c votesList with
    | none => none
    | some w => (weighChildren view votesList rest).map (fun l => (c, w) :: l)

/-- `Iterator::max_by_key`: the last element with the maximal key. -/
def lastMax : List (Block × Nat) → Option (Block × Nat)
  | [] => none
  | p :: rest =>
    match lastMax rest with
    | none => some p
    | some q => some (if q.2 < p.2 then p else q)

/-- The walk of `ghost` (src/fork_choice.rs), with fuel: enumerate the children
of the current block, stop if there are none, otherwise descend into the child
whose subtree has the most filtered votes. -/
def ghostF (view : View) (filtered : List (ValidatorId × Vote)) :
    Nat → Hash → Option Hash
  | 0, _ => none
  | f + 1, current_hash =>
    let children := (view.blocks.map Prod.snd).filter
      (fun b => decide (b.parent_hash = current_hash))
    if children.isEmpty then some current_hash
    else
      match weighChildren view (filtered.map Prod.snd) children with
      | none => none
      | some weighted =>
        match lastMax weighted with
        | none => none
        | some best => ghostF view filtered f best.1.hash

/-- `ghost` from src/fork_choice.rs with the canonical fuel: in an acyclic view
each step strictly increases the distance from the root, so
`view.blocks.length + 1` iterations always suffice. -/
def ghost (view : View) (filtered : List (ValidatorId × Vote)) (start_hash : Hash) :
    Option Hash :=
  ghostF view filtered (view.blocks.length + 1) start_hash

/-- `rlmd_ghost_fork_choice` from src/fork_choice.rs. -/
def rlmd_ghost_fork_choice (view : View) (start_hash : Hash) (current_slot : Nat) :
    Option Hash :=
  ghost view (filter_rlmd_votes view current_slot) start_hash

/-- `Node` from src/node.rs. -/
structure Node where
  validator : Validator
  view : View
  frozen_view : View
  ch_ava : Hash
  ch_fin : Hash
  justification_cache : Cache
  finalization_cache : Cache
deriving DecidableEq

/-- `Node::new` from src/node.rs. -/
def Node.new (id : ValidatorId) : Node :=
  let genesis_block := Block.genesis
  let initial_view : View := { blocks := [(genesis_block.hash, genesis_block)], votes := [] }
  { validator := { id := id, status := ValidatorStatus.Active }
    view := initial_view
    frozen_view := initial_view
    ch_ava := genesis_block.hash
    ch_fin := genesis_block.hash
    justification_cache := []
    finalization_cache := [] }

/-- `view.blocks.entry(h).or_insert(b)`: insert only if the key is absent. -/
def insertIfAbsent (blocks : List (Hash × Block)) (h : Hash) (b : Block) :
    List (Hash × Block) :=
  match lookupBlock blocks h with
  | some _ => blocks
  | none => blocks ++ [(h, b)]

/-- `view.blocks.insert(h, b)`: replace the entry if present, else append. -/
def insertBlock : List (Hash × Block) → Hash → Block → List (Hash × Block)
  | [], h, b => [(h, b)]
  | (k, w) :: rest, h, b =>
    if k = h then (h, b) :: rest else (k, w) :: insertBlock rest h b

/-- `Node::receive_message` from src/node.rs. -/
def receive_message (n : Node) (block : Option Block) (vote : Option Vote) : Node :=
  let n₁ :=
    match block with
    | some b => { n with view := { n.view with blocks := insertIfAbsent n.view.blocks b.hash b } }
    | none => n
  match vote with
  | some v => { n₁ with view := { n₁.view with votes := n₁.view.votes ++ [v] } }
  | none => n₁

/-- `Node::propose` from src/node.rs.  `none` models a panic inside the
justification or fork-choice computation. -/
def propose (n : Node) (current_slot : Nat) : Option (Proposal × Node) :=
  match greatest_justified_checkpoint n.view n.justification_cache with
  | none => none
  | some (gjc, cache₁) =>
    match rlmd_ghost_fork_choice n.view gjc.block_hash current_slot with
    | none => none
    | some head_hash =>
      let new_block : Block :=
        { hash := "block_slot_" ++ toString current_slot ++ "_proposer_" ++
            toString n.validator.id
          parent_hash := head_hash
          slot := current_slot
          proposer_id := n.validator.id
          transactions := [] }
      let view₁ : View :=
        { n.view with blocks := insertBlock n.view.blocks new_block.hash new_block }
      some ({ chain_head_hash := new_block.hash, view := view₁, slot := current_slot,
              proposer_id := n.validator.id },
            { n with view := view₁, justification_cache := cache₁ })

/-- `Node::on_receive_proposal` from src/node.rs. -/
def on_receive_proposal (n : Node) (proposal : Proposal) : Node :=
  { n with frozen_view :=
      { blocks := proposal.view.blocks.foldl (fun bs p => insertIfAbsent bs p.1 p.2)
          n.frozen_view.blocks
        votes := n.frozen_view.votes ++ proposal.view.votes } }

/-- The walk of `Node::get_k_deep_prefix` (src/node.rs), with fuel; `m` is the
fixed bound `head_block.slot.saturating_sub(k)`. -/
def kDeepGo (view : View) (m : Nat) : Nat → Block → Option Hash
  | 0, current_block =>
    if current_block.slot ≤ m then some current_block.hash
    else if current_block.parent_hash = "null" then some current_block.hash
    else none
  | f + 1, current_block =>
    if current_block.slot ≤ m then some current_block.hash
    else if current_block.parent_hash = "null" then some current_block.hash
    else
      match lookupBlock view.blocks current_block.parent_hash with
      | none => none
      | some parent => kDeepGo view m f parent

/-- `Node::get_k_deep_prefix` from src/node.rs (a method reading
`self.frozen_view`, passed here explicitly). -/
def get_k_deep_prefix (frozen_view : View) (head_block : Block) (k : Nat) : Option Hash :=
  kDeepGo frozen_view (head_block.slot - k) (frozen_view.blocks.length + 1) head_block

/-- `max_by_key` over candidate head hashes keyed by the slot of the (unwrapped)
block: the last maximal element; `none` models the `unwrap` panic on a hash
missing from the view. -/
def maxBySlotLast (view : View) : List Hash → Option Hash
  | [] => none
  | h :: rest =>
    match lookupBlock view.blocks h with
    | none => none
    | some b =>
      match maxBySlotLast view rest with
      | none => some h
      | some m =>
        match lookupBlock view.blocks m with
        | none => none
        | some mb => some (if mb.slot < b.slot then h else m)

/-- `Node::vote` from src/node.rs. -/
def voteOp (n : Node) (current_slot : Nat) : Option (Vote × Node) :=
  match greatest_justified_checkpoint n.frozen_view n.justification_cache with
  | none => none
  | some (gjc_frozen, cache₁) =>
    match rlmd_ghost_fork_choice n.frozen_view gjc_frozen.block_hash current_slot with
    | none => none
    | some head_hash =>
      match lookupBlock n.frozen_view.blocks head_hash with
      | none => none
      | some head_block =>
        match get_k_deep_prefix n.frozen_view head_block KAPPA with
        | none => none
        | some k_deep =>
          match maxBySlotLast n.frozen_view [n.ch_ava, k_deep, gjc_frozen.block_hash] with
          | none => none
          | some new_ch_ava =>
            some ({ chain_head_hash := head_hash
                    source := gjc_frozen
                    target := { block_hash := new_ch_ava, slot := current_slot }
                    slot := current_slot
                    validator_id := n.validator.id },
                  { n with ch_ava := new_ch_ava, justification_cache := cache₁ })

/-- The per-head tally of `fast_confirm` (src/node.rs):
`*vote_counts.entry(head).or_insert(0) += 1`. -/
def bumpCount : List (Hash × Nat) → Hash → List (Hash × Nat)
  | [], h => [(h, 1)]
  | (k, c) :: rest, h =>
    if k = h then (k, c + 1) :: rest else (k, c) :: bumpCount rest h

/-- The `vote_counts` map of `fast_confirm` (src/node.rs): current-slot votes
tallied by chain-head hash, keys in first-seen order. -/
def tallyVotes (votes : List Vote) (current_slot : Nat) : List (Hash × Nat) :=
  votes.foldl (fun acc v => if v.slot = current_slot then bumpCount acc v.chain_head_hash else acc) []

/-- `Node::fast_confirm` from src/node.rs: if some head's count exceeds
`2 * n / 3` with the hard-coded `n = 100`, set `ch_ava` to it. -/
def fast_confirm (n : Node) (current_slot : Nat) : Node :=
  let vote_counts := tallyVotes n.view.votes current_slot
  match vote_counts.find? (fun p => decide (2 * 100 / 3 < p.2)) with
  | some p => { n with ch_ava := p.1 }
  | none => n

/-- `Node::merge` from src/node.rs. -/
def merge (n : Node) : Node :=
  { n with frozen_view := n.view, justification_cache := [], finalization_cache := [] }

/-- The public operations of `Node` (src/node.rs), as invoked by the driver. -/
inductive Op where
  | receive_message (block : Option Block) (vote : Option Vote)
  | propose (current_slot : Nat)
  | on_receive_proposal (proposal : Proposal)
  | vote (current_slot : Nat)
  | fast_confirm (current_slot : Nat)
  | merge
deriving DecidableEq

/-- Apply one public operation to a node, discarding the returned value;
`none` models a panic of the operation. -/
def applyOp (n : Node) : Op → Option Node
  | Op.receive_message b v => some (receive_message n b v)
  | Op.propose s => (propose n s).map Prod.snd
  | Op.on_receive_proposal p => some (on_receive_proposal n p)
  | Op.vote s => (voteOp n s).map Prod.snd
  | Op.fast_confirm s => some (fast_confirm n s)
  | Op.merge => some (merge n)

/-- Apply a sequence of public operations. -/
def run (n : Node) : List Op → Option Node
  | [] => some n
  | op :: rest =>
    match applyOp n op with
    | none => none
    | some n₁ => run n₁ rest

/-- Distance (number of blocks) from a hash to the `"null"` parent reference,
following `parent_hash` through the view, with fuel. -/
def nullDistF (view : View) : Nat → Hash → Option Nat
  | 0, h => if h = "null" then some 0 else none
  | f + 1, h =>
    if h = "null" then some 0
    else
      match lookupBlock view.blocks h with
      | none => none
      | some b => (nullDistF view f b.parent_hash).map (· + 1)

/-- Well-formed view (spec §3): block-map keys are unique and are the hashes of
the stored blocks, no block is keyed by the reserved `"null"` reference, and
every stored block's ancestor chain is present in the view and terminates (at
the parentless genesis) within `view.blocks.length` steps — i.e. the parent
relation is acyclic and has no dangling references. -/
def WellFormed (view : View) : Prop :=
  (view.blocks.map Prod.fst).Nodup ∧
    ∀ p ∈ view.blocks,
      p.1 = p.2.hash ∧ p.1 ≠ "null" ∧
        (nullDistF view view.blocks.length p.1).isSome = true

/-- "V′ contains every block of V": every stored binding of `V` is found by
lookup in `V′`. -/
def BlocksLe (v v' : View) : Prop :=
  ∀ p ∈ v.blocks, lookupBlock v'.blocks p.1 = some p.2

/-- "V′ contains every vote of V". -/
def VotesLe (v v' : View) : Prop :=
  ∀ w ∈ v.votes, w ∈ v'.votes

/-- The genesis checkpoint `(genesis_hash, 0)`. -/
def genesisCheckpoint : Checkpoint := { block_hash := "genesis_hash", slot := 0 }

instance (view : View) : Decidable (WellFormed view) := by
  unfold WellFormed; infer_instance

instance (v v' : View) : Decidable (BlocksLe v v') := by
  unfold BlocksLe; infer_instance

instance (v v' : View) : Decidable (VotesLe v v') := by
  unfold VotesLe; infer_instance

/-! ### Concrete views and nodes used by the claim theorems and witnesses -/

/-- Block `B` of the spec's worked justification example: slot 1, child of genesis. -/
def exBlockB : Block :=
  { hash := "B", parent_hash := "genesis_hash", slot := 1, proposer_id := 0,
    transactions := [] }

/-- A vote of the worked example: justified source = genesis, target = `(B, 1)`. -/
def exVoteB (i : Nat) : Vote :=
  { chain_head_hash := "B", source := genesisCheckpoint,
    target := { block_hash := "B", slot := 1 }, slot := 1, validator_id := i }

/-- The worked example's view with 3 of 4 validators voting. -/
def exView3 : View :=
  { blocks := [(Block.genesis.hash, Block.genesis), ("B", exBlockB)],
    votes := (List.range 3).map exVoteB }

/-- The worked example's view scaled to 67 voters, enough even for the
hard-coded `count > 2 * 100 / 3` threshold. -/
def exView67 : View :=
  { blocks := [(Block.genesis.hash, Block.genesis), ("B", exBlockB)],
    votes := (List.range 67).map exVoteB }

/-- Chain block `b1` (slot 1, child of genesis) of the monotonicity example. -/
def monoB1 : Block :=
  { hash := "b1", parent_hash := "genesis_hash", slot := 1, proposer_id := 0,
    transactions := [] }

/-- Chain block `b2` (slot 2, child of `b1`) of the monotonicity example. -/
def monoB2 : Block :=
  { hash := "b2", parent_hash := "b1", slot := 2, proposer_id := 0,
    transactions := [] }

/-- A vote justifying checkpoint `(b1, 1)`: source genesis, target `(b2, 1)`. -/
def monoVote (i : Nat) : Vote :=
  { chain_head_hash := "b2", source := genesisCheckpoint,
    target := { block_hash := "b2", slot := 1 }, slot := 1, validator_id := i }

/-- A well-formed view in which checkpoint `(b1, 1)` is justified (67 voters). -/
def monoView : View :=
  { blocks := [(Block.genesis.hash, Block.genesis), ("b1", monoB1), ("b2", monoB2)],
    votes := (List.range 67).map monoVote }

/-- A vote whose target block hash `"Y"` is not in the view. -/
def monoBadVote : Vote :=
  { chain_head_hash := "b2", source := genesisCheckpoint,
    target := { block_hash := "Y", slot := 1 }, slot := 1, validator_id := 99 }

/-- The superset view: every block and vote of `monoView` plus one vote whose
target block is unknown. -/
def monoViewSup : View := { monoView with votes := monoView.votes ++ [monoBadVote] }

/-- The checkpoint `(b1, 1)` of the monotonicity example. -/
def monoCp : Checkpoint := { block_hash := "b1", slot := 1 }

/-- The `i`-th block of the 5-block linear chain of the k-deep example. -/
def chainBlock (i : Nat) : Block :=
  { hash := "b" ++ toString i
    parent_hash := if i = 1 then "genesis_hash" else "b" ++ toString (i - 1)
    slot := i, proposer_id := 0, transactions := [] }

/-- Genesis plus a single linear chain of 5 blocks at slots 1..5. -/
def chainView : View :=
  { blocks := (Block.genesis.hash, Block.genesis) ::
      (List.range 5).map (fun i => ("b" ++ toString (i + 1), chainBlock (i + 1)))
    votes := [] }

/-- The k-deep example node: frozen view = the 5-block chain, `ch_ava` = genesis,
no votes (so no non-genesis checkpoint is justified). -/
def chainNode : Node := { Node.new 0 with frozen_view := chainView }

/-- A current-slot vote for head `"A"` (fast-confirm example). -/
def headVote (i : Nat) : Vote :=
  { chain_head_hash := "A", source := genesisCheckpoint,
    target := { block_hash := "A", slot := 1 }, slot := 1, validator_id := i }

/-- A node whose view holds 67 current-slot votes for head `"A"`. -/
def fcNode67 : Node :=
  { Node.new 0 with view :=
      { blocks := [(Block.genesis.hash, Block.genesis)],
        votes := (List.range 67).map headVote } }

/-- A node whose view holds exactly 66 current-slot votes for head `"A"`
(support exactly at the two-thirds threshold). -/
def fcNode66 : Node :=
  { Node.new 0 with view :=
      { blocks := [(Block.genesis.hash, Block.genesis)],
        votes := (List.range 66).map headVote } }

/-- Two equivocating votes at the same slot (filter example). -/
def eqVoteA : Vote :=
  { chain_head_hash := "A", source := genesisCheckpoint,
    target := { block_hash := "A", slot := 0 }, slot := 0, validator_id := 7 }

/-- The second equivocating vote, for a different head. -/
def eqVoteB : Vote :=
  { chain_head_hash := "B", source := genesisCheckpoint,
    target := { block_hash := "B", slot := 0 }, slot := 0, validator_id := 7 }

/-- A view holding only the two equivocating votes. -/
def eqView : View :=
  { blocks := [(Block.genesis.hash, Block.genesis)], votes := [eqVoteA, eqVoteB] }

/-- A vote naming a chain head absent from every view used below. -/
def unknownHeadVote : Vote :=
  { chain_head_hash := "zzz_unknown", source := genesisCheckpoint,
    target := { block_hash := "zzz_unknown", slot := 0 }, slot := 0, validator_id := 3 }

/-- Soundness invariant relating the memoization cache to the cache-free
recursion: every cached entry is a value `is_justifiedF` returns at some fuel. -/
def CacheOk (view : View) (cache : Cache) : Prop :=
  ∀ p ∈ cache, ∃ f, is_justifiedF f p.1 view = some p.2

/-! ### C1 — the spec's worked justification example against the code -/

/-- C1.  Running `is_justified` (fresh cache) on the worked example's view —
genesis plus block `B` at slot 1, every vote having justified source = genesis
and target = checkpoint `(B, 1)` — returns `false` both with 3 voters and even
with 67 voters (enough for the hard-coded `count > 2 * 100 / 3` threshold):
the implementation requires the checkpoint block to be a *strict* ancestor of
the target block, so a vote whose target block equals the checkpoint block is
never counted, contradicting the source's own comment
`// Check ancestry: source <= checkpoint <= target` and the spec's example
(which expects `true` for 3 of 4 voters under threshold `count > 2`). -/
theorem justification_worked_example_runs_false :
    (is_justified { block_hash := "B", slot := 1 } exView3 []).map Prod.fst = some false ∧
    (is_justified { block_hash := "B", slot := 1 } exView67 []).map Prod.fst = some false := by
  exact ⟨by decide, by decide⟩

/-! ### C3 — genesis is justified in every view -/

/-- C3.  With a fresh cache, `is_justified` returns `true` on the genesis
checkpoint `(genesis_hash, 0)` in every view, whatever its blocks and votes
(the base case fires before the vote loop and before any fuel is consumed). -/
theorem genesis_always_justified :
    ∀ view : View, (is_justified genesisCheckpoint view []).map Prod.fst = some true := by
  intro view
  rfl

/-! ### C7 — k-deep selection in `vote` -/

/-- C7.  On the node whose frozen view is genesis plus a single linear chain of
5 blocks at slots 1..5, whose `ch_ava` is the genesis hash and whose (empty)
votes justify no non-genesis checkpoint, `vote(5)` with `KAPPA = 4` sets
`ch_ava` to the k-deep prefix of the head: the chain block at slot 1. -/
theorem vote_selects_k_deep :
    (voteOp chainNode 5).map (fun p => p.2.ch_ava) = some "b1" := by
  decide

/-! ### C10 — `receive_message` mutates only the working view -/

/-- C10.  For every node state and every combination of optional block and
optional vote arguments, `receive_message` leaves `frozen_view`, `ch_ava`,
`ch_fin` and both memoization caches unchanged. -/
theorem receive_message_frame :
    ∀ (n : Node) (block : Option Block) (vote : Option Vote),
      (receive_message n block vote).frozen_view = n.frozen_view ∧
      (receive_message n block vote).ch_ava = n.ch_ava ∧
      (receive_message n block vote).ch_fin = n.ch_fin ∧
      (receive_message n block vote).justification_cache = n.justification_cache ∧
      (receive_message n block vote).finalization_cache = n.finalization_cache := by
  intro n block vote
  cases block <;> cases vote <;> simp [receive_message]

/-! ### C9 — votes for unknown blocks are weightless and harmless in `ghost` -/

/-- C9.  In the subtree-weighing step of `ghost`, a filtered vote whose
`chain_head_hash` is not a key of the view's block map contributes nothing to
the count of any child and never makes the weighing fail: removing such a vote
from the weighed list, wherever it occurs, leaves the count unchanged. -/
theorem unknown_head_vote_zero_weight :
    ∀ (view : View) (child : Block) (l₁ l₂ : List Vote) (v : Vote),
      lookupBlock view.blocks v.chain_head_hash = none →
      countVotesFor view child (l₁ ++ v :: l₂) = countVotesFor view child (l₁ ++ l₂) := by
  intro view child l₁ l₂ v hv
  induction l₁ with
  | nil => simp [countVotesFor, hv]
  | cons w rest ih =>
    simp only [List.cons_append, countVotesFor, List.append_eq]
    rw [ih]

/-- Witness for C9 at a concrete input: the vote for the unknown head
`"zzz_unknown"` is ignored by the weighing over the genesis view. -/
theorem unknown_head_vote_zero_weight_witness :
    lookupBlock (Node.new 0).view.blocks unknownHeadVote.chain_head_hash = none ∧
    countVotesFor (Node.new 0).view Block.genesis ([] ++ unknownHeadVote :: []) =
      countVotesFor (Node.new 0).view Block.genesis ([] ++ []) :=
  ⟨by decide, unknown_head_vote_zero_weight _ _ [] [] _ (by decide)⟩

/-! ### C6 — `fast_confirm` threshold behaviour -/

/-- C6.  `fast_confirm(current_slot)` tallies the view's current-slot votes by
chain-head hash (`tallyVotes`).  If head `h` is the unique head whose count
exceeds `2 * 100 / 3`, then `ch_ava` is set to `h`; if some head's count
exceeds the threshold then `ch_ava` is set to a head whose count exceeds it;
and if no head's count exceeds the threshold (in particular when the best
support is exactly two-thirds), the node is left unchanged. -/
theorem fast_confirm_supermajority_threshold :
    ∀ (n : Node) (current_slot : Nat),
      (∀ h c, (h, c) ∈ tallyVotes n.view.votes current_slot → 2 * 100 / 3 < c →
        (∀ p ∈ tallyVotes n.view.votes current_slot, 2 * 100 / 3 < p.2 → p = (h, c)) →
        (fast_confirm n current_slot).ch_ava = h) ∧
      ((∃ p ∈ tallyVotes n.view.votes current_slot, 2 * 100 / 3 < p.2) →
        ∃ q ∈ tallyVotes n.view.votes current_slot, 2 * 100 / 3 < q.2 ∧
          (fast_confirm n current_slot).ch_ava = q.1) ∧
      ((∀ p ∈ tallyVotes n.view.votes current_slot, p.2 ≤ 2 * 100 / 3) →
        fast_confirm n current_slot = n) := by
  intro n current_slot
  have hunf : fast_confirm n current_slot =
      match (tallyVotes n.view.votes current_slot).find?
          (fun p => decide (2 * 100 / 3 < p.2)) with
      | some p => { n with ch_ava := p.1 }
      | none => n := rfl
  refine ⟨?_, ?_, ?_⟩
  · intro h c hmem hgt huniq
    cases hq : (tallyVotes n.view.votes current_slot).find?
        (fun p => decide (2 * 100 / 3 < p.2)) with
    | none =>
      exact absurd (by simpa using List.find?_eq_none.mp hq (h, c) hmem) (by simpa using hgt)
    | some q =>
      have hqmem := List.mem_of_find?_eq_some hq
      have hqpred : 2 * 100 / 3 < q.2 := by simpa using List.find?_some hq
      have : q = (h, c) := huniq q hqmem hqpred
      rw [hunf, hq, this]
  · rintro ⟨p, hpmem, hpgt⟩
    cases hq : (tallyVotes n.view.votes current_slot).find?
        (fun p => decide (2 * 100 / 3 < p.2)) with
    | none =>
      exact absurd (by simpa using List.find?_eq_none.mp hq p hpmem) (by simpa using hpgt)
    | some q =>
      refine ⟨q, List.mem_of_find?_eq_some hq, by simpa using List.find?_some hq, ?_⟩
      rw [hunf, hq]
  · intro hall
    cases hq : (tallyVotes n.view.votes current_slot).find?
        (fun p => decide (2 * 100 / 3 < p.2)) with
    | none => rw [hunf, hq]
    | some q =>
      have hqmem := List.mem_of_find?_eq_some hq
      have hqpred : 2 * 100 / 3 < q.2 := by simpa using List.find?_some hq
      exact absurd hqpred (by simpa using hall q hqmem)

/-- Witness for C6 at concrete inputs: 67 of 100 current-slot votes for head
`"A"` make `fast_confirm` set `ch_ava` to `"A"`; with exactly 66 votes
(two-thirds, not exceeded) the node is unchanged. -/
theorem fast_confirm_supermajority_threshold_witness :
    (("A", 67) ∈ tallyVotes fcNode67.view.votes 1 ∧
      2 * 100 / 3 < 67 ∧
      (fast_confirm fcNode67 1).ch_ava = "A") ∧
    ((∀ p ∈ tallyVotes fcNode66.view.votes 1, p.2 ≤ 2 * 100 / 3) ∧
      fast_confirm fcNode66 1 = fcNode66) :=
  ⟨⟨by decide, by decide,
      (fast_confirm_supermajority_threshold fcNode67 1).1 "A" 67 (by decide) (by decide)
        (by decide)⟩,
    ⟨by decide, (fast_confirm_supermajority_threshold fcNode66 1).2.2 (by decide)⟩⟩

/-! ### C8 — `ch_fin` never advances -/

/-- `receive_message` leaves `ch_fin` unchanged. -/
theorem receive_message_ch_fin (n : Node) (b : Option Block) (v : Option Vote) :
    (receive_message n b v).ch_fin = n.ch_fin := by
  cases b <;> cases v <;> simp [receive_message]

/-- `propose` leaves `ch_fin` unchanged. -/
theorem propose_ch_fin (n : Node) (s : Nat) (p : Proposal) (n₁ : Node)
    (h : propose n s = some (p, n₁)) : n₁.ch_fin = n.ch_fin := by
  unfold propose at h
  split at h
  · exact absurd h (by simp)
  · split at h
    · exact absurd h (by simp)
    · simp only [Option.some_inj, Prod.mk.injEq] at h
      rw [← h.2]

/-- `voteOp` leaves `ch_fin` unchanged. -/
theorem voteOp_ch_fin (n : Node) (s : Nat) (v : Vote) (n₁ : Node)
    (h : voteOp n s = some (v, n₁)) : n₁.ch_fin = n.ch_fin := by
  unfold voteOp at h
  split at h
  · exact absurd h (by simp)
  · split at h
    · exact absurd h (by simp)
    · split at h
      · exact absurd h (by simp)
      · split at h
        · exact absurd h (by simp)
        · split at h
          · exact absurd h (by simp)
          · simp only [Option.some_inj, Prod.mk.injEq] at h
            rw [← h.2]

/-- `fast_confirm` leaves `ch_fin` unchanged. -/
theorem fast_confirm_ch_fin (n : Node) (s : Nat) :
    (fast_confirm n s).ch_fin = n.ch_fin := by
  have hunf : fast_confirm n s =
      match (tallyVotes n.view.votes s).find? (fun p => decide (2 * 100 / 3 < p.2)) with
      | some p => { n with ch_ava := p.1 }
      | none => n := rfl
  rw [hunf]
  cases (tallyVotes n.view.votes s).find? (fun p => decide (2 * 100 / 3 < p.2)) <;> rfl

/-- Every successful public operation leaves `ch_fin` unchanged. -/
theorem applyOp_ch_fin (n : Node) (op : Op) (n₁ : Node) (h : applyOp n op = some n₁) :
    n₁.ch_fin = n.ch_fin := by
  cases op with
  | receive_message b v =>
    simp only [applyOp, Option.some_inj] at h
    rw [← h, receive_message_ch_fin]
  | propose s =>
    simp only [applyOp, Option.map_eq_some'] at h
    obtain ⟨⟨p, n₂⟩, hp, hn⟩ := h
    rw [← hn]
    exact propose_ch_fin n s p n₂ hp
  | on_receive_proposal p =>
    simp only [applyOp, Option.some_inj] at h
    rw [← h]
    rfl
  | vote s =>
    simp only [applyOp, Option.map_eq_some'] at h
    obtain ⟨⟨v, n₂⟩, hp, hn⟩ := h
    rw [← hn]
    exact voteOp_ch_fin n s v n₂ hp
  | fast_confirm s =>
    simp only [applyOp, Option.some_inj] at h
    rw [← h, fast_confirm_ch_fin]
  | merge =>
    simp only [applyOp, Option.some_inj] at h
    rw [← h]
    rfl

/-- Every successful run of public operations leaves `ch_fin` unchanged. -/
theorem run_ch_fin : ∀ (ops : List Op) (n n₁ : Node), run n ops = some n₁ →
    n₁.ch_fin = n.ch_fin := by
  intro ops
  induction ops with
  | nil =>
    intro n n₁ h
    simp only [run, Option.some_inj] at h
    rw [h]
  | cons op rest ih =>
    intro n n₁ h
    simp only [run] at h
    cases hop : applyOp n op with
    | none => rw [hop] at h; exact absurd h (by simp)
    | some n₂ =>
      rw [hop] at h
      rw [ih n₂ n₁ h, applyOp_ch_fin n op n₂ hop]

/-- C8.  For every node created by `Node::new` and every sequence of the public
operations (`receive_message`, `propose`, `on_receive_proposal`, `vote`,
`fast_confirm`, `merge`) that completes without panicking, the node's `ch_fin`
field still equals the genesis hash: finalization is never advanced. -/
theorem ch_fin_never_advances :
    ∀ (id : ValidatorId) (ops : List Op) (n₁ : Node),
      run (Node.new id) ops = some n₁ → n₁.ch_fin = "genesis_hash" := by
  intro id ops n₁ h
  rw [run_ch_fin ops (Node.new id) n₁ h]
  rfl

/-- Witness for C8 at a concrete input: a merge followed by a fast-confirm
leaves `ch_fin` at the genesis hash. -/
theorem ch_fin_never_advances_witness :
    (run (Node.new 0) [Op.merge, Op.fast_confirm 1]).map Node.ch_fin =
      some "genesis_hash" := by
  cases hr : run (Node.new 0) [Op.merge, Op.fast_confirm 1] with
  | none => exact absurd hr (by decide)
  | some n₁ =>
    rw [Option.map_some']
    exact congrArg some (ch_fin_never_advances 0 [Op.merge, Op.fast_confirm 1] n₁ hr)

/-! ### C4 — equivocators are excluded from the RLMD filter -/

/-- A successful `lookupVal` finds a stored binding. -/
theorem lookupVal_mem : ∀ (l : List (ValidatorId × Vote)) (vid : ValidatorId) (w : Vote),
    lookupVal l vid = some w → (vid, w) ∈ l := by
  intro l vid w h
  induction l with
  | nil => simp [lookupVal] at h
  | cons p rest ih =>
    obtain ⟨k, u⟩ := p
    simp only [lookupVal] at h
    by_cases hk : k = vid
    · rw [if_pos hk] at h
      obtain rfl : u = w := Option.some_inj.mp h
      rw [← hk]
      exact List.mem_cons_self _ _
    · rw [if_neg hk] at h
      exact List.mem_cons_of_mem _ (ih h)

/-- Every binding of `updateLatest l vid v` is the new binding or an old one. -/
theorem mem_updateLatest : ∀ (l : List (ValidatorId × Vote)) (vid : ValidatorId) (v : Vote)
    (p : ValidatorId × Vote), p ∈ updateLatest l vid v → p = (vid, v) ∨ p ∈ l := by
  intro l vid v p h
  induction l with
  | nil =>
    simp only [updateLatest, List.mem_singleton] at h
    exact Or.inl h
  | cons q rest ih =>
    obtain ⟨k, u⟩ := q
    simp only [updateLatest] at h
    by_cases hk : k = vid
    · rw [if_pos hk] at h
      rcases List.mem_cons.mp h with h1 | h1
      · exact Or.inl h1
      · exact Or.inr (List.mem_cons_of_mem _ h1)
    · rw [if_neg hk] at h
      rcases List.mem_cons.mp h with h1 | h1
      · exact Or.inr (h1 ▸ List.mem_cons_self _ _)
      · rcases ih h1 with h2 | h2
        · exact Or.inl h2
        · exact Or.inr (List.mem_cons_of_mem _ h2)

/-- Updating another validator's binding does not change a lookup. -/
theorem lookupVal_updateLatest_ne :
    ∀ (l : List (ValidatorId × Vote)) (k vid : ValidatorId) (v : Vote), k ≠ vid →
      lookupVal (updateLatest l k v) vid = lookupVal l vid := by
  intro l k vid v hk
  induction l with
  | nil => simp [updateLatest, lookupVal, if_neg hk]
  | cons q rest ih =>
    obtain ⟨kq, u⟩ := q
    simp only [updateLatest]
    by_cases hq : kq = k
    · rw [if_pos hq]
      simp only [lookupVal, if_neg hk, hq]
    · rw [if_neg hq]
      simp only [lookupVal]
      by_cases hqv : kq = vid
      · rw [if_pos hqv, if_pos hqv]
      · rw [if_neg hqv, if_neg hqv, ih]

/-- Updating a validator's binding makes the lookup return the new vote. -/
theorem lookupVal_updateLatest_self :
    ∀ (l : List (ValidatorId × Vote)) (vid : ValidatorId) (v : Vote),
      lookupVal (updateLatest l vid v) vid = some v := by
  intro l vid v
  induction l with
  | nil => simp [updateLatest, lookupVal]
  | cons q rest ih =>
    obtain ⟨k, u⟩ := q
    simp only [updateLatest]
    by_cases hk : k = vid
    · rw [if_pos hk]
      simp [lookupVal]
    · rw [if_neg hk]
      simp only [lookupVal, if_neg hk]
      exact ih

/-- One filter iteration never removes a recorded equivocator. -/
theorem filterStep_eqv_mono (cs : Nat)
    (st : List (ValidatorId × Vote) × List ValidatorId) (v : Vote) (vid : ValidatorId)
    (h : vid ∈ st.2) : vid ∈ (filterStep cs st v).2 := by
  obtain ⟨latest, eqv⟩ := st
  unfold filterStep
  by_cases hexp : v.slot < cs - ETA
  · rw [if_pos hexp]; exact h
  · rw [if_neg hexp]
    cases hlk : lookupVal latest v.validator_id with
    | none => exact h
    | some lv =>
      dsimp only
      by_cases h1 : lv.slot < v.slot
      · rw [if_pos h1]; exact h
      · rw [if_neg h1]
        by_cases h2 : v.slot = lv.slot ∧ v.chain_head_hash ≠ lv.chain_head_hash
        · rw [if_pos h2]; exact List.mem_cons_of_mem _ h
        · rw [if_neg h2]; exact h

/-- Folding the filter loop never removes a recorded equivocator. -/
theorem foldl_eqv_mono (cs : Nat) (vid : ValidatorId) :
    ∀ (l : List Vote) (st : List (ValidatorId × Vote) × List ValidatorId),
      vid ∈ st.2 → vid ∈ (l.foldl (filterStep cs) st).2 := by
  intro l
  induction l with
  | nil => intro st h; exact h
  | cons v rest ih =>
    intro st h
    rw [List.foldl_cons]
    exact ih _ (filterStep_eqv_mono cs st v vid h)

/-- One filter iteration preserves the slot bound on the stored binding of
`vid`, provided the incoming vote respects the bound when non-expired. -/
theorem filterStep_bound (cs : Nat) (vid : ValidatorId) (s : Nat) (v : Vote)
    (hmax : v.validator_id = vid → ¬ v.slot < cs - ETA → v.slot ≤ s)
    (st : List (ValidatorId × Vote) × List ValidatorId)
    (hA : ∀ p ∈ st.1, p.1 = vid → p.2.slot ≤ s) :
    ∀ p ∈ (filterStep cs st v).1, p.1 = vid → p.2.slot ≤ s := by
  obtain ⟨latest, eqv⟩ := st
  unfold filterStep
  by_cases hexp : v.slot < cs - ETA
  · rw [if_pos hexp]; exact hA
  · rw [if_neg hexp]
    cases hlk : lookupVal latest v.validator_id with
    | none =>
      dsimp only
      intro p hp hpv
      rcases List.mem_cons.mp hp with h1 | h1
      · rw [h1] at hpv ⊢
        exact hmax hpv hexp
      · exact hA p h1 hpv
    | some lv =>
      dsimp only
      by_cases h1 : lv.slot < v.slot
      · rw [if_pos h1]
        intro p hp hpv
        rcases mem_updateLatest latest v.validator_id v p hp with h2 | h2
        · rw [h2] at hpv ⊢
          exact hmax hpv hexp
        · exact hA p h2 hpv
      · rw [if_neg h1]
        by_cases h2 : v.slot = lv.slot ∧ v.chain_head_hash ≠ lv.chain_head_hash
        · rw [if_pos h2]; exact hA
        · rw [if_neg h2]; exact hA

/-- Folding the filter loop preserves the slot bound on the stored binding. -/
theorem foldl_bound (cs : Nat) (vid : ValidatorId) (s : Nat) :
    ∀ (l : List Vote) (st : List (ValidatorId × Vote) × List ValidatorId),
      (∀ v ∈ l, v.validator_id = vid → ¬ v.slot < cs - ETA → v.slot ≤ s) →
      (∀ p ∈ st.1, p.1 = vid → p.2.slot ≤ s) →
      ∀ p ∈ (l.foldl (filterStep cs) st).1, p.1 = vid → p.2.slot ≤ s := by
  intro l
  induction l with
  | nil => intro st _ hA; exact hA
  | cons v rest ih =>
    intro st hmax hA
    rw [List.foldl_cons]
    exact ih _ (fun w hw => hmax w (List.mem_cons_of_mem _ hw))
      (filterStep_bound cs vid s v (hmax v (List.mem_cons_self _ _)) st hA)

/-- Once the stored binding of `vid` is pinned at the maximal slot `s` with
chain head `ha` (or `vid` is already an equivocator), one more iteration
preserves this. -/
theorem filterStep_J (cs : Nat) (vid : ValidatorId) (s : Nat) (ha : Hash) (v : Vote)
    (hmax : v.validator_id = vid → ¬ v.slot < cs - ETA → v.slot ≤ s)
    (st : List (ValidatorId × Vote) × List ValidatorId)
    (hJ : vid ∈ st.2 ∨ ∃ lv, lookupVal st.1 vid = some lv ∧ lv.slot = s ∧
      lv.chain_head_hash = ha) :
    vid ∈ (filterStep cs st v).2 ∨
      ∃ lv, lookupVal (filterStep cs st v).1 vid = some lv ∧ lv.slot = s ∧
        lv.chain_head_hash = ha := by
  rcases hJ with hJ | ⟨lv, hlk, hslot, hhead⟩
  · exact Or.inl (filterStep_eqv_mono cs st v vid hJ)
  · obtain ⟨latest, eqv⟩ := st
    unfold filterStep
    by_cases hexp : v.slot < cs - ETA
    · rw [if_pos hexp]
      exact Or.inr ⟨lv, hlk, hslot, hhead⟩
    · rw [if_neg hexp]
      by_cases hv : v.validator_id = vid
      · rw [hv, hlk]
        dsimp only
        by_cases h1 : lv.slot < v.slot
        · exact absurd (lt_of_le_of_lt (hslot ▸ hmax hv hexp) h1) (lt_irrefl _)
        · rw [if_neg h1]
          by_cases h2 : v.slot = lv.slot ∧ v.chain_head_hash ≠ lv.chain_head_hash
          · rw [if_pos h2]
            exact Or.inl (List.mem_cons_self _ _)
          · rw [if_neg h2]
            exact Or.inr ⟨lv, hlk, hslot, hhead⟩
      · cases hlk2 : lookupVal latest v.validator_id with
        | none =>
          dsimp only
          refine Or.inr ⟨lv, ?_, hslot, hhead⟩
          simp only [lookupVal, if_neg hv]
          exact hlk
        | some lw =>
          dsimp only
          by_cases h1 : lw.slot < v.slot
          · rw [if_pos h1]
            refine Or.inr ⟨lv, ?_, hslot, hhead⟩
            rw [lookupVal_updateLatest_ne latest v.validator_id vid v hv]
            exact hlk
          · rw [if_neg h1]
            by_cases h2 : v.slot = lw.slot ∧ v.chain_head_hash ≠ lw.chain_head_hash
            · rw [if_pos h2]
              exact Or.inr ⟨lv, hlk, hslot, hhead⟩
            · rw [if_neg h2]
              exact Or.inr ⟨lv, hlk, hslot, hhead⟩

/-- Folding the filter loop preserves the pinned-binding invariant. -/
theorem foldl_J (cs : Nat) (vid : ValidatorId) (s : Nat) (ha : Hash) :
    ∀ (l : List Vote) (st : List (ValidatorId × Vote) × List ValidatorId),
      (∀ v ∈ l, v.validator_id = vid → ¬ v.slot < cs - ETA → v.slot ≤ s) →
      (vid ∈ st.2 ∨ ∃ lv, lookupVal st.1 vid = some lv ∧ lv.slot = s ∧
        lv.chain_head_hash = ha) →
      (vid ∈ (l.foldl (filterStep cs) st).2 ∨
        ∃ lv, lookupVal (l.foldl (filterStep cs) st).1 vid = some lv ∧ lv.slot = s ∧
          lv.chain_head_hash = ha) := by
  intro l
  induction l with
  | nil => intro st _ hJ; exact hJ
  | cons v rest ih =>
    intro st hmax hJ
    rw [List.foldl_cons]
    exact ih _ (fun w hw => hmax w (List.mem_cons_of_mem _ hw))
      (filterStep_J cs vid s ha v (hmax v (List.mem_cons_self _ _)) st hJ)

/-- Processing the first equivocating vote establishes the pinned-binding
invariant (with that vote's chain head), given the slot bound on the state. -/
theorem filterStep_start (cs : Nat) (vid : ValidatorId) (s : Nat) (va : Vote)
    (hva : va.validator_id = vid) (hsa : va.slot = s) (hea : ¬ va.slot < cs - ETA)
    (st : List (ValidatorId × Vote) × List ValidatorId)
    (hA : ∀ p ∈ st.1, p.1 = vid → p.2.slot ≤ s) :
    vid ∈ (filterStep cs st va).2 ∨
      ∃ lv, lookupVal (filterStep cs st va).1 vid = some lv ∧ lv.slot = s ∧
        lv.chain_head_hash = va.chain_head_hash := by
  obtain ⟨latest, eqv⟩ := st
  unfold filterStep
  rw [if_neg hea]
  cases hlk : lookupVal latest va.validator_id with
  | none =>
    dsimp only
    refine Or.inr ⟨va, ?_, hsa, rfl⟩
    simp only [lookupVal, if_pos hva]
  | some lv =>
    dsimp only
    have hlvs : lv.slot ≤ s := hA (va.validator_id, lv)
      (hva ▸ lookupVal_mem latest va.validator_id lv hlk) hva
    by_cases h1 : lv.slot < va.slot
    · rw [if_pos h1]
      refine Or.inr ⟨va, ?_, hsa, rfl⟩
      rw [← hva]
      exact lookupVal_updateLatest_self latest va.validator_id va
    · rw [if_neg h1]
      have hlveq : lv.slot = s := le_antisymm hlvs (hsa ▸ le_of_not_lt h1)
      by_cases h2 : va.slot = lv.slot ∧ va.chain_head_hash ≠ lv.chain_head_hash
      · rw [if_pos h2]
        exact Or.inl (hva ▸ List.mem_cons_self _ _)
      · rw [if_neg h2]
        have hsame : va.chain_head_hash = lv.chain_head_hash := by
          by_contra hcon
          exact h2 ⟨hsa.trans hlveq.symm, hcon⟩
        exact Or.inr ⟨lv, hva ▸ hlk, hlveq, hsame.symm⟩

/-- Processing the second equivocating vote records `vid` as an equivocator. -/
theorem filterStep_finish (cs : Nat) (vid : ValidatorId) (s : Nat) (ha : Hash) (vb : Vote)
    (hvb : vb.validator_id = vid) (hsb : vb.slot = s) (heb : ¬ vb.slot < cs - ETA)
    (hne : vb.chain_head_hash ≠ ha)
    (st : List (ValidatorId × Vote) × List ValidatorId)
    (hJ : vid ∈ st.2 ∨ ∃ lv, lookupVal st.1 vid = some lv ∧ lv.slot = s ∧
      lv.chain_head_hash = ha) :
    vid ∈ (filterStep cs st vb).2 := by
  rcases hJ with hJ | ⟨lv, hlk, hslot, hhead⟩
  · exact filterStep_eqv_mono cs st vb vid hJ
  · obtain ⟨latest, eqv⟩ := st
    unfold filterStep
    rw [if_neg heb, hvb, hlk]
    dsimp only
    have h1 : ¬ lv.slot < vb.slot := by rw [hslot, hsb]; exact lt_irrefl _
    rw [if_neg h1]
    have h2 : vb.slot = lv.slot ∧ vb.chain_head_hash ≠ lv.chain_head_hash :=
      ⟨hsb.trans hslot.symm, hhead ▸ hne⟩
    rw [if_pos h2]
    exact hvb ▸ List.mem_cons_self _ _

/-- A recorded equivocator is absent from the filtered output map. -/
theorem lookupVal_filter_none (eqv : List ValidatorId) (vid : ValidatorId) (h : vid ∈ eqv) :
    ∀ l : List (ValidatorId × Vote),
      lookupVal (l.filter (fun p => decide (p.1 ∉ eqv))) vid = none := by
  intro l
  induction l with
  | nil => rfl
  | cons p rest ih =>
    obtain ⟨k, w⟩ := p
    by_cases hk : k ∈ eqv
    · rw [List.filter_cons_of_neg]
      · exact ih
      · simpa using hk
    · rw [List.filter_cons_of_pos]
      · have hkv : k ≠ vid := fun he => hk (he ▸ h)
        simp only [lookupVal, if_neg hkv]
        exact ih
      · simpa using hk

/-- C4.  If a validator has two non-expired votes at its maximal non-expired
slot `s` with different chain-head hashes — wherever the two votes sit in the
view's vote list — then that validator is absent from the mapping returned by
`filter_rlmd_votes`, so its votes carry no weight in the fork-choice walk. -/
theorem equivocator_excluded_from_filter :
    ∀ (view : View) (current_slot : Nat) (vid : ValidatorId) (s : Nat)
      (l₁ l₂ l₃ : List Vote) (va vb : Vote),
      view.votes = l₁ ++ va :: (l₂ ++ vb :: l₃) →
      va.validator_id = vid → vb.validator_id = vid →
      va.slot = s → vb.slot = s →
      ¬ va.slot < current_slot - ETA → ¬ vb.slot < current_slot - ETA →
      va.chain_head_hash ≠ vb.chain_head_hash →
      (∀ v ∈ view.votes, v.validator_id = vid → ¬ v.slot < current_slot - ETA →
        v.slot ≤ s) →
      lookupVal (filter_rlmd_votes view current_slot) vid = none := by
  intro view cs vid s l₁ l₂ l₃ va vb hsplit hva hvb hsa hsb hea heb hne hmax
  have hmax' : ∀ v ∈ l₁ ++ va :: (l₂ ++ vb :: l₃),
      v.validator_id = vid → ¬ v.slot < cs - ETA → v.slot ≤ s := by
    rw [← hsplit]; exact hmax
  have hmem : vid ∈ (view.votes.foldl (filterStep cs) ([], [])).2 := by
    rw [hsplit, List.foldl_append, List.foldl_cons, List.foldl_append, List.foldl_cons]
    apply foldl_eqv_mono
    apply filterStep_finish cs vid s va.chain_head_hash vb hvb hsb heb
      (fun he => hne he.symm)
    apply foldl_J cs vid s va.chain_head_hash l₂
    · intro v hv
      exact hmax' v (List.mem_append_right _
        (List.mem_cons_of_mem _ (List.mem_append_left _ hv)))
    · apply filterStep_start cs vid s va hva hsa hea
      apply foldl_bound cs vid s l₁ ([], [])
      · intro v hv
        exact hmax' v (List.mem_append_left _ hv)
      · intro p hp
        simp at hp
  have hunf : filter_rlmd_votes view cs =
      (view.votes.foldl (filterStep cs) ([], [])).1.filter
        (fun p => decide (p.1 ∉ (view.votes.foldl (filterStep cs) ([], [])).2)) := rfl
  rw [hunf]
  exact lookupVal_filter_none _ vid hmem _

/-- Witness for C4 at a concrete input: validator 7 votes for heads `"A"` and
`"B"` at the same slot 0 (current slot 0, so neither vote is expired) and is
absent from the filtered mapping. -/
theorem equivocator_excluded_from_filter_witness :
    eqView.votes = [] ++ eqVoteA :: ([] ++ eqVoteB :: []) ∧
    eqVoteA.chain_head_hash ≠ eqVoteB.chain_head_hash ∧
    lookupVal (filter_rlmd_votes eqView 0) 7 = none :=
  ⟨by decide, by decide,
    equivocator_excluded_from_filter eqView 0 7 0 [] [] [] eqVoteA eqVoteB
      (by decide) (by decide) (by decide) (by decide) (by decide) (by decide)
      (by decide) (by decide) (by decide)⟩

/-! ### C5 — the fork-choice walk terminates inside the view -/

/-- A successful block lookup finds a stored binding. -/
theorem lookupBlock_mem : ∀ (l : List (Hash × Block)) (h : Hash) (b : Block),
    lookupBlock l h = some b → (h, b) ∈ l := by
  intro l h b hl
  induction l with
  | nil => simp [lookupBlock] at hl
  | cons p rest ih =>
    obtain ⟨k, u⟩ := p
    simp only [lookupBlock] at hl
    by_cases hk : k = h
    · rw [if_pos hk] at hl
      obtain rfl : u = b := Option.some_inj.mp hl
      rw [← hk]
      exact List.mem_cons_self _ _
    · rw [if_neg hk] at hl
      exact List.mem_cons_of_mem _ (ih hl)

/-- With unique keys, a stored binding is found by lookup. -/
theorem lookupBlock_of_mem_nodup : ∀ (l : List (Hash × Block)),
    (l.map Prod.fst).Nodup → ∀ (h : Hash) (b : Block), (h, b) ∈ l →
      lookupBlock l h = some b := by
  intro l
  induction l with
  | nil => intro _ h b hm; simp at hm
  | cons p rest ih =>
    obtain ⟨k, u⟩ := p
    intro hnd h b hm
    simp only [List.map_cons, List.nodup_cons] at hnd
    rcases List.mem_cons.mp hm with h1 | h1
    · have hk : h = k := congrArg Prod.fst h1
      have hb : b = u := congrArg Prod.snd h1
      subst hk
      subst hb
      simp [lookupBlock]
    · have hk : k ≠ h := by
        intro he
        exact hnd.1 (he ▸ (List.mem_map_of_mem Prod.fst h1 : (h, b).1 ∈ rest.map Prod.fst))
      simp only [lookupBlock, if_neg hk]
      exact ih hnd.2 h b h1

/-- `nullDistF` is monotone in the fuel. -/
theorem nullDistF_mono (view : View) :
    ∀ (f f' : Nat) (h : Hash) (d : Nat), f ≤ f' →
      nullDistF view f h = some d → nullDistF view f' h = some d := by
  intro f
  induction f with
  | zero =>
    intro f' h d _ hd
    simp only [nullDistF] at hd
    by_cases hn : h = "null"
    · rw [if_pos hn] at hd
      obtain rfl : 0 = d := Option.some_inj.mp hd
      cases f' <;> simp [nullDistF, hn]
    · rw [if_neg hn] at hd
      exact absurd hd (by simp)
  | succ g ihg =>
    intro f' h d hle hd
    obtain ⟨g', rfl⟩ : ∃ g', f' = g' + 1 := ⟨f' - 1, by omega⟩
    simp only [nullDistF] at hd ⊢
    by_cases hn : h = "null"
    · rw [if_pos hn] at hd ⊢
      exact hd
    · rw [if_neg hn] at hd ⊢
      cases hlk : lookupBlock view.blocks h with
      | none => rw [hlk] at hd; exact absurd hd (by simp)
      | some b =>
        rw [hlk] at hd
        dsimp only at hd ⊢
        obtain ⟨d₁, hd₁, rfl⟩ := Option.map_eq_some'.mp hd
        rw [ihg g' b.parent_hash d₁ (by omega) hd₁]
        rfl

/-- The returned distance never exceeds the fuel. -/
theorem nullDistF_le (view : View) :
    ∀ (f : Nat) (h : Hash) (d : Nat), nullDistF view f h = some d → d ≤ f := by
  intro f
  induction f with
  | zero =>
    intro h d hd
    simp only [nullDistF] at hd
    by_cases hn : h = "null"
    · rw [if_pos hn] at hd
      obtain rfl : 0 = d := Option.some_inj.mp hd
      omega
    · rw [if_neg hn] at hd
      exact absurd hd (by simp)
  | succ g ihg =>
    intro h d hd
    simp only [nullDistF] at hd
    by_cases hn : h = "null"
    · rw [if_pos hn] at hd
      obtain rfl : 0 = d := Option.some_inj.mp hd
      omega
    · rw [if_neg hn] at hd
      cases hlk : lookupBlock view.blocks h with
      | none => rw [hlk] at hd; exact absurd hd (by simp)
      | some b =>
        rw [hlk] at hd
        dsimp only at hd
        obtain ⟨d₁, hd₁, rfl⟩ := Option.map_eq_some'.mp hd
        exact Nat.succ_le_succ (ihg b.parent_hash d₁ hd₁)

/-- The distance to `"null"` is unique across fuels. -/
theorem nullDistF_det (view : View) (f f' : Nat) (h : Hash) (d d' : Nat)
    (h1 : nullDistF view f h = some d) (h2 : nullDistF view f' h = some d') : d = d' := by
  have a := nullDistF_mono view f (max f f') h d (le_max_left _ _) h1
  have b := nullDistF_mono view f' (max f f') h d' (le_max_right _ _) h2
  rw [a] at b
  exact Option.some_inj.mp b

/-- Unfolding one step of the distance walk at a non-null hash. -/
theorem nullDistF_step (view : View) (f : Nat) (h : Hash) (e : Nat) (b : Block)
    (hd : nullDistF view f h = some e) (hnull : h ≠ "null")
    (hlk : lookupBlock view.blocks h = some b) :
    ∃ e₁ g, f = g + 1 ∧ e = e₁ + 1 ∧ nullDistF view g b.parent_hash = some e₁ := by
  cases f with
  | zero =>
    simp only [nullDistF, if_neg hnull] at hd
    exact absurd hd (by simp)
  | succ g =>
    simp only [nullDistF, if_neg hnull, hlk] at hd
    obtain ⟨e₁, he₁, rfl⟩ := Option.map_eq_some'.mp hd
    exact ⟨e₁, g, rfl, rfl, he₁⟩

/-- `isAncestorOfF` is monotone in the fuel. -/
theorem isAncestorOfF_mono (view : View) (sh : Hash) :
    ∀ (f f' : Nat) (h : Hash) (r : Bool), f ≤ f' →
      isAncestorOfF view sh f h = some r → isAncestorOfF view sh f' h = some r := by
  intro f
  induction f with
  | zero =>
    intro f' h r _ hr
    simp only [isAncestorOfF] at hr
    by_cases hn : h = "null"
    · rw [if_pos hn] at hr
      obtain rfl : false = r := Option.some_inj.mp hr
      cases f' <;> simp [isAncestorOfF, hn]
    · rw [if_neg hn] at hr
      by_cases hs : h = sh
      · rw [if_pos hs] at hr
        obtain rfl : true = r := Option.some_inj.mp hr
        have hsn : ¬ sh = "null" := hs ▸ hn
        cases f' <;> simp [isAncestorOfF, hn, hs, hsn]
      · rw [if_neg hs] at hr
        exact absurd hr (by simp)
  | succ g ihg =>
    intro f' h r hle hr
    obtain ⟨g', rfl⟩ : ∃ g', f' = g' + 1 := ⟨f' - 1, by omega⟩
    simp only [isAncestorOfF] at hr ⊢
    by_cases hn : h = "null"
    · rw [if_pos hn] at hr ⊢
      exact hr
    · rw [if_neg hn] at hr ⊢
      by_cases hs : h = sh
      · rw [if_pos hs] at hr ⊢
        exact hr
      · rw [if_neg hs] at hr ⊢
        cases hlk : lookupBlock view.blocks h with
        | none => rw [hlk] at hr; exact absurd hr (by simp)
        | some b =>
          rw [hlk] at hr
          dsimp only at hr ⊢
          exact ihg g' b.parent_hash r (by omega) hr

/-- A hash at distance `d` from `"null"` admits a defined ancestry answer with
fuel `d`, for every probed ancestor hash. -/
theorem ancestry_defined (view : View) :
    ∀ (f : Nat) (h : Hash) (d : Nat), nullDistF view f h = some d →
      ∀ sh : Hash, ∃ r, isAncestorOfF view sh d h = some r := by
  intro f
  induction f with
  | zero =>
    intro h d hd sh
    simp only [nullDistF] at hd
    by_cases hn : h = "null"
    · rw [if_pos hn] at hd
      obtain rfl : 0 = d := Option.some_inj.mp hd
      exact ⟨false, by simp [isAncestorOfF, hn]⟩
    · rw [if_neg hn] at hd
      exact absurd hd (by simp)
  | succ g ihg =>
    intro h d hd sh
    simp only [nullDistF] at hd
    by_cases hn : h = "null"
    · rw [if_pos hn] at hd
      obtain rfl : 0 = d := Option.some_inj.mp hd
      exact ⟨false, by simp [isAncestorOfF, hn]⟩
    · rw [if_neg hn] at hd
      cases hlk : lookupBlock view.blocks h with
      | none => rw [hlk] at hd; exact absurd hd (by simp)
      | some b =>
        rw [hlk] at hd
        dsimp only at hd
        obtain ⟨d₁, hd₁, rfl⟩ := Option.map_eq_some'.mp hd
        by_cases hs : h = sh
        · have hsn : ¬ sh = "null" := hs ▸ hn
          exact ⟨true, by simp [isAncestorOfF, hn, hs, hsn]⟩
        · obtain ⟨r, hr⟩ := ihg b.parent_hash d₁ hd₁ sh
          exact ⟨r, by simp [isAncestorOfF, hn, hs, hlk, hr]⟩

/-- In a well-formed view, the ancestry test against any stored block is
defined (the walk terminates without a missing-parent panic). -/
theorem is_ancestor_of_total (view : View) (hwf : WellFormed view) (child vb : Block)
    (k : Hash) (hmem : (k, vb) ∈ view.blocks) :
    ∃ r, Block.is_ancestor_of child vb view = some r := by
  obtain ⟨hkey, hnn, hdd⟩ := hwf.2 (k, vb) hmem
  obtain ⟨e, he⟩ := Option.isSome_iff_exists.mp hdd
  have hlk : lookupBlock view.blocks k = some vb := lookupBlock_of_mem_nodup _ hwf.1 _ _ hmem
  obtain ⟨e₁, g, hg, hee, hpar⟩ := nullDistF_step view _ k e vb he hnn hlk
  obtain ⟨r, hr⟩ := ancestry_defined view g vb.parent_hash e₁ hpar child.hash
  refine ⟨r, ?_⟩
  have hle : e₁ ≤ view.blocks.length + 1 := by
    have := nullDistF_le view g vb.parent_hash e₁ hpar
    omega
  exact isAncestorOfF_mono view child.hash e₁ (view.blocks.length + 1) vb.parent_hash r hle hr

/-- In a well-formed view, the subtree weighing of any child over any vote list
never fails. -/
theorem countVotesFor_total (view : View) (hwf : WellFormed view) (child : Block) :
    ∀ l : List Vote, ∃ w, countVotesFor view child l = some w := by
  intro l
  induction l with
  | nil => exact ⟨0, rfl⟩
  | cons v rest ih =>
    obtain ⟨w, hw⟩ := ih
    cases hlk : lookupBlock view.blocks v.chain_head_hash with
    | none => exact ⟨w, by simp [countVotesFor, hlk, hw]⟩
    | some vb =>
      by_cases heq : child.hash = vb.hash
      · exact ⟨w + 1, by simp [countVotesFor, hlk, heq, hw]⟩
      · obtain ⟨r, hr⟩ :=
          is_ancestor_of_total view hwf child vb _ (lookupBlock_mem _ _ _ hlk)
        cases r
        · exact ⟨w, by simp [countVotesFor, hlk, heq, hr, hw]⟩
        · exact ⟨w + 1, by simp [countVotesFor, hlk, heq, hr, hw]⟩

/-- In a well-formed view, weighing a child list never fails and preserves the
children (in order). -/
theorem weighChildren_total (view : View) (hwf : WellFormed view) (vl : List Vote) :
    ∀ children : List Block, ∃ pairs, weighChildren view vl children = some pairs ∧
      pairs.map Prod.fst = children := by
  intro children
  induction children with
  | nil => exact ⟨[], rfl, rfl⟩
  | cons c rest ih =>
    obtain ⟨pairs, hp, hm⟩ := ih
    obtain ⟨w, hw⟩ := countVotesFor_total view hwf c vl
    refine ⟨(c, w) :: pairs, ?_, by simp [hm]⟩
    simp [weighChildren, hw, hp]

/-- `lastMax` returns an element of its input. -/
theorem lastMax_mem : ∀ (l : List (Block × Nat)) (p : Block × Nat),
    lastMax l = some p → p ∈ l := by
  intro l
  induction l with
  | nil => intro p hp; simp [lastMax] at hp
  | cons q rest ih =>
    intro p hp
    simp only [lastMax] at hp
    cases hm : lastMax rest with
    | none =>
      rw [hm] at hp
      dsimp only at hp
      exact Option.some_inj.mp hp ▸ List.mem_cons_self _ _
    | some m =>
      rw [hm] at hp
      dsimp only at hp
      by_cases hlt : m.2 < q.2
      · rw [if_pos hlt] at hp
        obtain rfl : q = p := Option.some_inj.mp hp
        exact List.mem_cons_self _ _
      · rw [if_neg hlt] at hp
        obtain rfl : m = p := Option.some_inj.mp hp
        exact List.mem_cons_of_mem _ (ih m hm)

/-- `lastMax` only fails on the empty list. -/
theorem lastMax_eq_none : ∀ l : List (Block × Nat), lastMax l = none → l = [] := by
  intro l hl
  cases l with
  | nil => rfl
  | cons q rest =>
    simp only [lastMax] at hl
    cases hm : lastMax rest with
    | none => rw [hm] at hl; exact absurd hl (by simp)
    | some m => rw [hm] at hl; exact absurd hl (by simp)

/-- In a well-formed view, a stored child whose parent reference is `current`
sits one step further from `"null"` than `current`, and within the view bound. -/
theorem child_dist (view : View) (hwf : WellFormed view) (current : Hash) (d : Nat)
    (hd : nullDistF view view.blocks.length current = some d)
    (k : Hash) (c : Block) (hmem : (k, c) ∈ view.blocks) (hpar : c.parent_hash = current) :
    nullDistF view view.blocks.length c.hash = some (d + 1) ∧
      d + 1 ≤ view.blocks.length := by
  obtain ⟨hkey, hnn, hdd⟩ := hwf.2 (k, c) hmem
  obtain ⟨e, he⟩ := Option.isSome_iff_exists.mp hdd
  have hlk : lookupBlock view.blocks k = some c := lookupBlock_of_mem_nodup _ hwf.1 _ _ hmem
  obtain ⟨e₁, g, hg, hee, hstep⟩ := nullDistF_step view _ k e c he hnn hlk
  rw [hpar] at hstep
  have hd₁ : nullDistF view view.blocks.length current = some e₁ :=
    nullDistF_mono view g _ current e₁ (by omega) hstep
  have : e₁ = d := nullDistF_det view _ _ current e₁ d hd₁ hd
  subst this
  have hle := nullDistF_le view view.blocks.length k e he
  constructor
  · rw [← hkey, ← hee] at *
    exact he
  · omega

/-- The ghost walk terminates inside a well-formed view: starting at any stored
hash, with fuel exceeding the remaining depth, it returns a stored hash. -/
theorem ghostF_total (view : View) (filtered : List (ValidatorId × Vote))
    (hwf : WellFormed view) :
    ∀ (fuel : Nat) (current : Hash) (cb : Block) (d : Nat),
      lookupBlock view.blocks current = some cb →
      nullDistF view view.blocks.length current = some d →
      view.blocks.length + 1 ≤ fuel + d →
      ∃ h₁, ghostF view filtered fuel current = some h₁ ∧
        (lookupBlock view.blocks h₁).isSome = true := by
  intro fuel
  induction fuel with
  | zero =>
    intro current cb d hlk hd hf
    have := nullDistF_le view _ _ _ hd
    omega
  | succ f ih =>
    intro current cb d hlk hd hf
    by_cases hch : ((view.blocks.map Prod.snd).filter
        (fun b => decide (b.parent_hash = current))).isEmpty
    · refine ⟨current, ?_, by rw [hlk]; rfl⟩
      simp only [ghostF]
      rw [if_pos hch]
    · obtain ⟨pairs, hpairs, hmap⟩ := weighChildren_total view hwf (filtered.map Prod.snd)
        ((view.blocks.map Prod.snd).filter (fun b => decide (b.parent_hash = current)))
      have hne : pairs ≠ [] := by
        intro h0
        rw [h0] at hmap
        rw [← hmap] at hch
        simp at hch
      cases hbest : lastMax pairs with
      | none => exact absurd (lastMax_eq_none pairs hbest) hne
      | some best =>
        have hbmem : best ∈ pairs := lastMax_mem pairs best hbest
        have hchild : best.1 ∈ (view.blocks.map Prod.snd).filter
            (fun b => decide (b.parent_hash = current)) := by
          rw [← hmap]
          exact List.mem_map_of_mem Prod.fst hbmem
        have hsplit := List.mem_filter.mp hchild
        obtain ⟨p, hpmem, hpeq⟩ := List.mem_map.mp hsplit.1
        have hpar : best.1.parent_hash = current := of_decide_eq_true hsplit.2
        have hpmem₁ : (p.1, best.1) ∈ view.blocks := by
          rw [← hpeq]
          simpa using hpmem
        obtain ⟨hdist, hle⟩ := child_dist view hwf current d hd p.1 best.1 hpmem₁ hpar
        have hkey : p.1 = best.1.hash := (hwf.2 (p.1, best.1) hpmem₁).1
        have hlkb : lookupBlock view.blocks best.1.hash = some best.1 :=
          lookupBlock_of_mem_nodup _ hwf.1 _ _ (hkey ▸ hpmem₁)
        obtain ⟨h₁, hh₁, hsome⟩ := ih best.1.hash best.1 (d + 1) hlkb hdist (by omega)
        refine ⟨h₁, ?_, hsome⟩
        simp only [ghostF]
        rw [if_neg hch, hpairs]
        dsimp only
        rw [hbest]
        exact hh₁

/-- C5.  For every well-formed view (unique keys, acyclic parent relation with
chains present and terminating) and every start hash stored in the view's block
map, `rlmd_ghost_fork_choice` terminates with `some` result, and the returned
hash is a key of the supplied view's block map. -/
theorem fork_choice_terminates_in_view :
    ∀ (view : View) (start_hash : Hash) (current_slot : Nat),
      WellFormed view → (lookupBlock view.blocks start_hash).isSome = true →
      ∃ h₁, rlmd_ghost_fork_choice view start_hash current_slot = some h₁ ∧
        (lookupBlock view.blocks h₁).isSome = true := by
  intro view start_hash current_slot hwf hs
  obtain ⟨cb, hcb⟩ := Option.isSome_iff_exists.mp hs
  have hmem := lookupBlock_mem view.blocks start_hash cb hcb
  obtain ⟨e, he⟩ := Option.isSome_iff_exists.mp (hwf.2 (start_hash, cb) hmem).2.2
  exact ghostF_total view (filter_rlmd_votes view current_slot) hwf
    (view.blocks.length + 1) start_hash cb e hcb he (by omega)

/-- Witness for C5 at a concrete input: the genesis-only view of a fresh node. -/
theorem fork_choice_terminates_in_view_witness :
    WellFormed (Node.new 0).view ∧
    (lookupBlock (Node.new 0).view.blocks "genesis_hash").isSome = true ∧
    (rlmd_ghost_fork_choice (Node.new 0).view "genesis_hash" 3).isSome = true := by
  refine ⟨by decide, by decide, ?_⟩
  obtain ⟨h₁, he, _⟩ := fork_choice_terminates_in_view (Node.new 0).view "genesis_hash" 3
    (by decide) (by decide)
  rw [he]
  rfl

/-! ### C2 — monotonicity of justification: supporting lemmas -/

/-- A successful cache lookup finds a stored entry. -/
theorem lookupCache_mem : ∀ (cache : Cache) (c : Checkpoint) (b : Bool),
    lookupCache cache c = some b → (c, b) ∈ cache := by
  intro cache c b h
  induction cache with
  | nil => simp [lookupCache] at h
  | cons p rest ih =>
    obtain ⟨cp, bb⟩ := p
    simp only [lookupCache] at h
    by_cases hk : cp = c
    · rw [if_pos hk] at h
      obtain rfl : bb = b := Option.some_inj.mp h
      rw [← hk]
      exact List.mem_cons_self _ _
    · rw [if_neg hk] at h
      exact List.mem_cons_of_mem _ (ih h)

/-- Every entry of `insertCache cache c b` is the new entry or an old one. -/
theorem mem_insertCache : ∀ (cache : Cache) (c : Checkpoint) (b : Bool)
    (p : Checkpoint × Bool), p ∈ insertCache cache c b → p = (c, b) ∨ p ∈ cache := by
  intro cache c b p h
  induction cache with
  | nil =>
    simp only [insertCache, List.mem_singleton] at h
    exact Or.inl h
  | cons q rest ih =>
    obtain ⟨cq, bq⟩ := q
    simp only [insertCache] at h
    by_cases hk : cq = c
    · rw [if_pos hk] at h
      rcases List.mem_cons.mp h with h1 | h1
      · exact Or.inl h1
      · exact Or.inr (List.mem_cons_of_mem _ h1)
    · rw [if_neg hk] at h
      rcases List.mem_cons.mp h with h1 | h1
      · exact Or.inr (h1 ▸ List.mem_cons_self _ _)
      · rcases ih h1 with h2 | h2
        · exact Or.inl h2
        · exact Or.inr (List.mem_cons_of_mem _ h2)

/-- The per-vote check only depends on the recursive call through its values. -/
theorem voteCounted_congr (view : View) (c : Checkpoint) (j j' : Checkpoint → Option Bool)
    (hjj : ∀ s bb, j s = some bb → j' s = some bb) (v : Vote) (r : Bool)
    (h : voteCounted? j view c v = some r) : voteCounted? j' view c v = some r := by
  unfold voteCounted? at h ⊢
  by_cases hs : v.target.slot = c.slot
  · rw [if_pos hs] at h ⊢
    cases hj : j v.source with
    | none => rw [hj] at h; exact absurd h (by simp)
    | some bb =>
      rw [hj] at h
      rw [hjj v.source bb hj]
      exact h
  · rw [if_neg hs] at h ⊢
    exact h

/-- The vote loop only depends on the recursive call through its values. -/
theorem supVotersGo_congr (view : View) (c : Checkpoint) (j j' : Checkpoint → Option Bool)
    (hjj : ∀ s bb, j s = some bb → j' s = some bb) :
    ∀ (l : List Vote) (ids : List ValidatorId),
      supVotersGo j c view l = some ids → supVotersGo j' c view l = some ids := by
  intro l
  induction l with
  | nil => intro ids h; exact h
  | cons v rest ih =>
    intro ids h
    simp only [supVotersGo] at h ⊢
    cases hvc : voteCounted? j view c v with
    | none => rw [hvc] at h; exact absurd h (by simp)
    | some r =>
      rw [hvc] at h
      rw [voteCounted_congr view c j j' hjj v r hvc]
      cases r with
      | true =>
        dsimp only at h ⊢
        obtain ⟨ids₁, hids₁, rfl⟩ := Option.map_eq_some'.mp h
        rw [ih ids₁ hids₁]
        rfl
      | false =>
        dsimp only at h ⊢
        exact ih ids h

/-- `is_justifiedF` is monotone in the fuel. -/
theorem is_justifiedF_mono (view : View) :
    ∀ (f f' : Nat) (c : Checkpoint) (b : Bool), f ≤ f' →
      is_justifiedF f c view = some b → is_justifiedF f' c view = some b := by
  intro f
  induction f with
  | zero =>
    intro f' c b _ h
    simp only [is_justifiedF] at h
    by_cases hg : c.block_hash = "genesis_hash" ∧ c.slot = 0
    · rw [if_pos hg] at h
      obtain rfl : true = b := Option.some_inj.mp h
      cases f' <;> simp [is_justifiedF, hg]
    · rw [if_neg hg] at h
      exact absurd h (by simp)
  | succ g ihg =>
    intro f' c b hle h
    obtain ⟨g', rfl⟩ : ∃ g', f' = g' + 1 := ⟨f' - 1, by omega⟩
    simp only [is_justifiedF] at h ⊢
    by_cases hg : c.block_hash = "genesis_hash" ∧ c.slot = 0
    · rw [if_pos hg] at h ⊢
      exact h
    · rw [if_neg hg] at h ⊢
      obtain ⟨ids, hids, rfl⟩ := Option.map_eq_some'.mp h
      rw [supVotersGo_congr view c _ _ (fun s bb hs => ihg g' s bb (by omega) hs)
        view.votes ids hids]
      rfl

/-- Characterization of a counted vote. -/
theorem voteCounted_true_iff (j : Checkpoint → Option Bool) (view : View)
    (c : Checkpoint) (v : Vote) :
    voteCounted? j view c v = some true ↔
      v.target.slot = c.slot ∧ j v.source = some true ∧
        ancestryChecks view c v = some true := by
  unfold voteCounted?
  by_cases hs : v.target.slot = c.slot
  · rw [if_pos hs]
    cases hj : j v.source with
    | none => simp [hs, hj]
    | some bb => cases bb <;> simp [hs, hj]
  · rw [if_neg hs]
    simp [hs]

/-- Membership in the collected voter list of the vote loop. -/
theorem supVotersGo_mem_iff (j : Checkpoint → Option Bool) (c : Checkpoint) (view : View) :
    ∀ (l : List Vote) (ids : List ValidatorId), supVotersGo j c view l = some ids →
      ∀ i : ValidatorId, (i ∈ ids ↔ ∃ v ∈ l, v.validator_id = i ∧
        voteCounted? j view c v = some true) := by
  intro l
  induction l with
  | nil =>
    intro ids h i
    obtain rfl : ([] : List ValidatorId) = ids := Option.some_inj.mp h
    simp
  | cons v rest ih =>
    intro ids h i
    simp only [supVotersGo] at h
    cases hvc : voteCounted? j view c v with
    | none => rw [hvc] at h; exact absurd h (by simp)
    | some r =>
      rw [hvc] at h
      cases r with
      | true =>
        dsimp only at h
        obtain ⟨ids₁, hids₁, rfl⟩ := Option.map_eq_some'.mp h
        constructor
        · intro hi
          rcases List.mem_cons.mp hi with rfl | hi₁
          · exact ⟨v, List.mem_cons_self _ _, rfl, hvc⟩
          · obtain ⟨w, hw, hwi, hwc⟩ := (ih ids₁ hids₁ i).mp hi₁
            exact ⟨w, List.mem_cons_of_mem _ hw, hwi, hwc⟩
        · rintro ⟨w, hw, hwi, hwc⟩
          rcases List.mem_cons.mp hw with rfl | hw₁
          · exact hwi ▸ List.mem_cons_self _ _
          · exact List.mem_cons_of_mem _ ((ih ids₁ hids₁ i).mpr ⟨w, hw₁, hwi, hwc⟩)
      | false =>
        dsimp only at h
        rw [ih ids h i]
        constructor
        · rintro ⟨w, hw, hwi, hwc⟩
          exact ⟨w, List.mem_cons_of_mem _ hw, hwi, hwc⟩
        · rintro ⟨w, hw, hwi, hwc⟩
          rcases List.mem_cons.mp hw with rfl | hw₁
          · rw [hvc] at hwc
            exact absurd (Option.some_inj.mp hwc) (by simp)
          · exact ⟨w, hw₁, hwi, hwc⟩

/-- In a completed vote loop, the recursive call was defined on the source of
every vote whose target slot matches. -/
theorem supVotersGo_defined (j : Checkpoint → Option Bool) (c : Checkpoint) (view : View) :
    ∀ (l : List Vote) (ids : List ValidatorId), supVotersGo j c view l = some ids →
      ∀ v ∈ l, v.target.slot = c.slot → ∃ bs, j v.source = some bs := by
  intro l
  induction l with
  | nil => intro ids _ v hv; simp at hv
  | cons w rest ih =>
    intro ids h v hv hslot
    simp only [supVotersGo] at h
    cases hvc : voteCounted? j view c w with
    | none => rw [hvc] at h; exact absurd h (by simp)
    | some r =>
      rw [hvc] at h
      rcases List.mem_cons.mp hv with rfl | hv₁
      · unfold voteCounted? at hvc
        rw [if_pos hslot] at hvc
        cases hj : j v.source with
        | none => rw [hj] at hvc; exact absurd hvc (by simp)
        | some bs => exact ⟨bs, rfl⟩
      · cases r with
        | true =>
          dsimp only at h
          obtain ⟨ids₁, hids₁, rfl⟩ := Option.map_eq_some'.mp h
          exact ih ids₁ hids₁ v hv₁ hslot
        | false =>
          dsimp only at h
          exact ih ids h v hv₁ hslot

/-- One cached per-vote check is reflected by the cache-free per-vote check at
every sufficiently large fuel, and preserves cache soundness.  `hIH` is the
induction hypothesis on the cached recursion at fuel `f`. -/
theorem voteCountedC_sound (view : View) (c : Checkpoint) (f : Nat)
    (hIH : ∀ (s : Checkpoint) (cache : Cache) (b : Bool) (cache₁ : Cache),
      is_justifiedC f s view cache = some (b, cache₁) → CacheOk view cache →
      (∃ g, is_justifiedF g s view = some b) ∧ CacheOk view cache₁)
    (v : Vote) (cache : Cache) (r : Bool) (cache₁ : Cache)
    (h : voteCountedC (fun s ch => is_justifiedC f s view ch) view c v cache =
      some (r, cache₁))
    (hok : CacheOk view cache) :
    CacheOk view cache₁ ∧ ∃ F, ∀ F₁, F ≤ F₁ →
      voteCounted? (fun s => is_justifiedF F₁ s view) view c v = some r := by
  unfold voteCountedC at h
  by_cases hs : v.target.slot = c.slot
  · rw [if_pos hs] at h
    dsimp only at h
    cases hj : is_justifiedC f v.source view cache with
    | none => rw [hj] at h; exact absurd h (by simp)
    | some p =>
      obtain ⟨bs, cache₂⟩ := p
      rw [hj] at h
      obtain ⟨⟨g₀, hg₀⟩, hok₂⟩ := hIH v.source cache bs cache₂ hj hok
      cases bs with
      | false =>
        dsimp only at h
        injection h with h'
        injection h' with h1 h2
        subst h1
        subst h2
        refine ⟨hok₂, g₀, fun F₁ hF₁ => ?_⟩
        unfold voteCounted?
        dsimp only
        rw [if_pos hs, is_justifiedF_mono view g₀ F₁ v.source false hF₁ hg₀]
      | true =>
        dsimp only at h
        cases hac : ancestryChecks view c v with
        | none => rw [hac] at h; exact absurd h (by simp)
        | some r₂ =>
          rw [hac] at h
          dsimp only at h
          injection h with h'
          injection h' with h1 h2
          subst h1
          subst h2
          refine ⟨hok₂, g₀, fun F₁ hF₁ => ?_⟩
          unfold voteCounted?
          dsimp only
          rw [if_pos hs, is_justifiedF_mono view g₀ F₁ v.source true hF₁ hg₀]
          exact hac
  · rw [if_neg hs] at h
    injection h with h'
    injection h' with h1 h2
    subst h1
    subst h2
    refine ⟨hok, 0, fun F₁ _ => ?_⟩
    unfold voteCounted?
    dsimp only
    rw [if_neg hs]

/-- The cached vote loop is reflected by the cache-free vote loop at every
sufficiently large fuel, and preserves cache soundness. -/
theorem supVotersGoC_sound (view : View) (c : Checkpoint) (f : Nat)
    (hIH : ∀ (s : Checkpoint) (cache : Cache) (b : Bool) (cache₁ : Cache),
      is_justifiedC f s view cache = some (b, cache₁) → CacheOk view cache →
      (∃ g, is_justifiedF g s view = some b) ∧ CacheOk view cache₁) :
    ∀ (l : List Vote) (cache : Cache) (ids : List ValidatorId) (cache₁ : Cache),
      supVotersGoC (fun s ch => is_justifiedC f s view ch) c view l cache =
        some (ids, cache₁) →
      CacheOk view cache →
      CacheOk view cache₁ ∧ ∃ F, ∀ F₁, F ≤ F₁ →
        supVotersGo (fun s => is_justifiedF F₁ s view) c view l = some ids := by
  intro l
  induction l with
  | nil =>
    intro cache ids cache₁ h hok
    injection h with h'
    injection h' with h1 h2
    subst h1
    subst h2
    exact ⟨hok, 0, fun F₁ _ => rfl⟩
  | cons v rest ih =>
    intro cache ids cache₁ h hok
    simp only [supVotersGoC] at h
    cases hvc : voteCountedC (fun s ch => is_justifiedC f s view ch) view c v cache with
    | none => rw [hvc] at h; exact absurd h (by simp)
    | some p =>
      obtain ⟨r, cache₂⟩ := p
      rw [hvc] at h
      obtain ⟨hok₂, Fv, hFv⟩ := voteCountedC_sound view c f hIH v cache r cache₂ hvc hok
      cases r with
      | true =>
        dsimp only at h
        obtain ⟨⟨ids₁, cache₃⟩, hrest, heq⟩ := Option.map_eq_some'.mp h
        dsimp only at heq
        injection heq with h1 h2
        subst h1
        subst h2
        obtain ⟨hok₃, Fr, hFr⟩ := ih cache₂ ids₁ cache₃ hrest hok₂
        refine ⟨hok₃, max Fv Fr, fun F₁ hF₁ => ?_⟩
        simp only [supVotersGo]
        rw [hFv F₁ (le_trans (le_max_left _ _) hF₁)]
        dsimp only
        rw [hFr F₁ (le_trans (le_max_right _ _) hF₁)]
        rfl
      | false =>
        dsimp only at h
        obtain ⟨hok₁, Fr, hFr⟩ := ih cache₂ ids cache₁ h hok₂
        refine ⟨hok₁, max Fv Fr, fun F₁ hF₁ => ?_⟩
        simp only [supVotersGo]
        rw [hFv F₁ (le_trans (le_max_left _ _) hF₁)]
        dsimp only
        exact hFr F₁ (le_trans (le_max_right _ _) hF₁)

/-- The faithful cached `is_justifiedC` is reflected by the cache-free
`is_justifiedF` (at some fuel), and turns a sound cache into a sound cache:
memoization does not change the returned value. -/
theorem is_justifiedC_sound (view : View) :
    ∀ (fuel : Nat) (c : Checkpoint) (cache : Cache) (b : Bool) (cache₁ : Cache),
      is_justifiedC fuel c view cache = some (b, cache₁) → CacheOk view cache →
      (∃ g, is_justifiedF g c view = some b) ∧ CacheOk view cache₁ := by
  intro fuel
  induction fuel with
  | zero =>
    intro c cache b cache₁ h hok
    simp only [is_justifiedC] at h
    cases hlc : lookupCache cache c with
    | some bb =>
      rw [hlc] at h
      dsimp only at h
      injection h with h'
      injection h' with h1 h2
      subst h1
      subst h2
      exact ⟨hok (c, bb) (lookupCache_mem cache c bb hlc), hok⟩
    | none =>
      rw [hlc] at h
      dsimp only at h
      by_cases hg : c.block_hash = "genesis_hash" ∧ c.slot = 0
      · rw [if_pos hg] at h
        injection h with h'
        injection h' with h1 h2
        subst h1
        subst h2
        refine ⟨⟨0, by simp [is_justifiedF, hg]⟩, ?_⟩
        intro p hp
        rcases mem_insertCache cache c true p hp with rfl | hp₁
        · exact ⟨0, by simp [is_justifiedF, hg]⟩
        · exact hok p hp₁
      · rw [if_neg hg] at h
        exact absurd h (by simp)
  | succ f ihf =>
    intro c cache b cache₁ h hok
    simp only [is_justifiedC] at h
    cases hlc : lookupCache cache c with
    | some bb =>
      rw [hlc] at h
      dsimp only at h
      injection h with h'
      injection h' with h1 h2
      subst h1
      subst h2
      exact ⟨hok (c, bb) (lookupCache_mem cache c bb hlc), hok⟩
    | none =>
      rw [hlc] at h
      dsimp only at h
      by_cases hg : c.block_hash = "genesis_hash" ∧ c.slot = 0
      · rw [if_pos hg] at h
        injection h with h'
        injection h' with h1 h2
        subst h1
        subst h2
        refine ⟨⟨0, by simp [is_justifiedF, hg]⟩, ?_⟩
        intro p hp
        rcases mem_insertCache cache c true p hp with rfl | hp₁
        · exact ⟨0, by simp [is_justifiedF, hg]⟩
        · exact hok p hp₁
      · rw [if_neg hg] at h
        cases hsup : supVotersGoC (fun s ch => is_justifiedC f s view ch) c view
            view.votes cache with
        | none => rw [hsup] at h; exact absurd h (by simp)
        | some q =>
          obtain ⟨ids, cache₂⟩ := q
          rw [hsup] at h
          dsimp only at h
          injection h with h'
          injection h' with h1 h2
          subst h1
          subst h2
          obtain ⟨hok₂, F, hF⟩ := supVotersGoC_sound view c f ihf view.votes cache ids
            cache₂ hsup hok
          have hfree : is_justifiedF (F + 1) c view =
              some (decide (2 * 100 / 3 < ids.dedup.length)) := by
            simp only [is_justifiedF]
            rw [if_neg hg, hF F le_rfl]
            rfl
          refine ⟨⟨F + 1, hfree⟩, ?_⟩
          intro p hp
          rcases mem_insertCache cache₂ c (decide (2 * 100 / 3 < ids.dedup.length))
              p hp with rfl | hp₁
          · exact ⟨F + 1, hfree⟩
          · exact hok₂ p hp₁

/-- A lookup that succeeds in `v` succeeds with the same block in any view
containing every block of `v`. -/
theorem lookupBlock_le (v v' : View) (hB : BlocksLe v v') (h : Hash) (b : Block)
    (hl : lookupBlock v.blocks h = some b) : lookupBlock v'.blocks h = some b :=
  hB (h, b) (lookupBlock_mem _ _ _ hl)

/-- A defined ancestry walk in `v` runs identically in any view containing
every block of `v` (same fuel): it only looks up blocks present in `v`. -/
theorem isAncestorOfF_le (v v' : View) (hB : BlocksLe v v') (sh : Hash) :
    ∀ (f : Nat) (h : Hash) (r : Bool), isAncestorOfF v sh f h = some r →
      isAncestorOfF v' sh f h = some r := by
  intro f
  induction f with
  | zero =>
    intro h r hr
    simp only [isAncestorOfF] at hr ⊢
    by_cases hn : h = "null"
    · rw [if_pos hn] at hr ⊢
      exact hr
    · rw [if_neg hn] at hr ⊢
      by_cases hs : h = sh
      · rw [if_pos hs] at hr ⊢
        exact hr
      · rw [if_neg hs] at hr
        exact absurd hr (by simp)
  | succ g ihg =>
    intro h r hr
    simp only [isAncestorOfF] at hr ⊢
    by_cases hn : h = "null"
    · rw [if_pos hn] at hr ⊢
      exact hr
    · rw [if_neg hn] at hr ⊢
      by_cases hs : h = sh
      · rw [if_pos hs] at hr ⊢
        exact hr
      · rw [if_neg hs] at hr ⊢
        cases hlk : lookupBlock v.blocks h with
        | none => rw [hlk] at hr; exact absurd hr (by simp)
        | some b =>
          rw [hlk] at hr
          rw [lookupBlock_le v v' hB h b hlk]
          dsimp only at hr ⊢
          exact ihg b.parent_hash r hr

/-- A defined `Block::is_ancestor_of` in `v` gives the same answer in any
larger view containing every block of `v`. -/
theorem is_ancestor_of_le (v v' : View) (hB : BlocksLe v v')
    (hL : v.blocks.length ≤ v'.blocks.length) (a b : Block) (r : Bool)
    (h : Block.is_ancestor_of a b v = some r) : Block.is_ancestor_of a b v' = some r := by
  unfold Block.is_ancestor_of at h ⊢
  exact isAncestorOfF_mono v' a.hash _ _ _ r (by omega)
    (isAncestorOfF_le v v' hB a.hash _ _ r h)

/-- Defined ancestry checks of a vote give the same answer in a larger view. -/
theorem ancestryChecks_le (v v' : View) (hB : BlocksLe v v')
    (hL : v.blocks.length ≤ v'.blocks.length) (c : Checkpoint) (vt : Vote) (r : Bool)
    (h : ancestryChecks v c vt = some r) : ancestryChecks v' c vt = some r := by
  unfold ancestryChecks at h ⊢
  cases h1 : lookupBlock v.blocks vt.source.block_hash with
  | none => rw [h1] at h; exact absurd h (by simp)
  | some sb =>
    rw [h1] at h
    rw [lookupBlock_le v v' hB _ _ h1]
    dsimp only at h ⊢
    cases h2 : lookupBlock v.blocks vt.target.block_hash with
    | none => rw [h2] at h; exact absurd h (by simp)
    | some tb =>
      rw [h2] at h
      rw [lookupBlock_le v v' hB _ _ h2]
      dsimp only at h ⊢
      cases h3 : lookupBlock v.blocks c.block_hash with
      | none => rw [h3] at h; exact absurd h (by simp)
      | some cb =>
        rw [h3] at h
        rw [lookupBlock_le v v' hB _ _ h3]
        dsimp only at h ⊢
        cases h4 : Block.is_ancestor_of sb cb v with
        | none => rw [h4] at h; exact absurd h (by simp)
        | some r₁ =>
          rw [h4] at h
          rw [is_ancestor_of_le v v' hB hL sb cb r₁ h4]
          cases r₁ with
          | false =>
            dsimp only at h ⊢
            exact h
          | true =>
            dsimp only at h ⊢
            exact is_ancestor_of_le v v' hB hL cb tb r h

/-- Key-set growth: with unique keys in `v`, a view containing every block of
`v` has at least as many stored blocks. -/
theorem blocks_length_le (v v' : View) (hnd : (v.blocks.map Prod.fst).Nodup)
    (hB : BlocksLe v v') : v.blocks.length ≤ v'.blocks.length := by
  have hsub : (v.blocks.map Prod.fst).toFinset ⊆ (v'.blocks.map Prod.fst).toFinset := by
    intro k hk
    rw [List.mem_toFinset] at hk ⊢
    obtain ⟨p, hp, hpk⟩ := List.mem_map.mp hk
    have hlk := hB p hp
    have hmem := lookupBlock_mem _ _ _ hlk
    rw [← hpk]
    exact List.mem_map_of_mem Prod.fst hmem
  have h1 : (v.blocks.map Prod.fst).toFinset.card = (v.blocks.map Prod.fst).length :=
    List.toFinset_card_of_nodup hnd
  have h2 : (v'.blocks.map Prod.fst).toFinset.card ≤ (v'.blocks.map Prod.fst).length :=
    List.toFinset_card_le _
  have h3 := Finset.card_le_card hsub
  simp only [List.length_map] at h1 h2
  omega

/-- Core monotonicity of the cache-free justification recursion: if a larger
view's computation completes at all, it cannot lose a `true` verdict of the
smaller view. -/
theorem is_justifiedF_le_mono (V V' : View) (hB : BlocksLe V V') (hV : VotesLe V V')
    (hL : V.blocks.length ≤ V'.blocks.length) :
    ∀ (g f : Nat) (c : Checkpoint) (b : Bool),
      is_justifiedF f c V = some true → is_justifiedF g c V' = some b → b = true := by
  intro g
  induction g with
  | zero =>
    intro f c b hV1 hV2
    simp only [is_justifiedF] at hV2
    by_cases hg : c.block_hash = "genesis_hash" ∧ c.slot = 0
    · rw [if_pos hg] at hV2
      exact (Option.some_inj.mp hV2).symm
    · rw [if_neg hg] at hV2
      exact absurd hV2 (by simp)
  | succ g₁ ihg =>
    intro f c b hV1 hV2
    by_cases hg : c.block_hash = "genesis_hash" ∧ c.slot = 0
    · simp only [is_justifiedF] at hV2
      rw [if_pos hg] at hV2
      exact (Option.some_inj.mp hV2).symm
    · cases f with
      | zero =>
        simp only [is_justifiedF] at hV1
        rw [if_neg hg] at hV1
        exact absurd hV1 (by simp)
      | succ f₁ =>
        simp only [is_justifiedF] at hV1 hV2
        rw [if_neg hg] at hV1 hV2
        obtain ⟨idsV, hsupV, hbV⟩ := Option.map_eq_some'.mp hV1
        obtain ⟨idsV', hsupV', rfl⟩ := Option.map_eq_some'.mp hV2
        have hsub : ∀ i ∈ idsV, i ∈ idsV' := by
          intro i hi
          obtain ⟨v, hv, hvi, hvc⟩ :=
            (supVotersGo_mem_iff _ c V V.votes idsV hsupV i).mp hi
          obtain ⟨hslot, hjs, hanc⟩ := (voteCounted_true_iff _ V c v).mp hvc
          have hv₁ : v ∈ V'.votes := hV v hv
          obtain ⟨bs, hbs⟩ :=
            supVotersGo_defined _ c V' V'.votes idsV' hsupV' v hv₁ hslot
          have hbt : bs = true := ihg f₁ v.source bs hjs hbs
          subst hbt
          refine (supVotersGo_mem_iff _ c V' V'.votes idsV' hsupV' i).mpr ?_
          exact ⟨v, hv₁, hvi, (voteCounted_true_iff _ V' c v).mpr
            ⟨hslot, hbs, ancestryChecks_le V V' hB hL c v true hanc⟩⟩
        have hcard : idsV.dedup.length ≤ idsV'.dedup.length := by
          have hfs : idsV.toFinset ⊆ idsV'.toFinset := by
            intro i hi
            rw [List.mem_toFinset] at hi ⊢
            exact hsub i hi
          have h1 := List.card_toFinset idsV
          have h2 := List.card_toFinset idsV'
          have h3 := Finset.card_le_card hfs
          omega
        have hgt : 2 * 100 / 3 < idsV.dedup.length := of_decide_eq_true hbV
        simp only [decide_eq_true_eq]
        omega

/-- Counterexample to C2 as stated: the well-formed view `monoView` justifies
checkpoint `(b1, 1)` with a fresh cache, yet the well-formed superset view
`monoViewSup` — every block and vote of `monoView` plus one vote whose target
block hash `"Y"` is absent — makes `is_justified` panic (the `unwrap` of the
target block fails while the vote loop scans all votes), so it does not return
`true`. -/
theorem justified_monotonicity_counterexample :
    WellFormed monoView ∧ WellFormed monoViewSup ∧
    BlocksLe monoView monoViewSup ∧ VotesLe monoView monoViewSup ∧
    (is_justified monoCp monoView []).map Prod.fst = some true ∧
    ¬ (is_justified monoCp monoViewSup []).map Prod.fst = some true :=
  ⟨by decide, by decide, by decide, by decide, by decide, by decide⟩

/-- C2 (amended).  For well-formed views `V ⊆ V'` (every block and vote of `V`
is in `V'`), if `is_justified(C, V)` with a fresh cache returns `true`, then
`is_justified(C, V')` with a fresh cache cannot return `false`: it returns
`true` whenever its computation completes (it may instead fail, e.g. panic on
an added vote referencing a block missing from the view — see the
counterexample). -/
theorem justified_monotonicity_amended :
    ∀ (V V' : View) (c : Checkpoint), WellFormed V → WellFormed V' →
      BlocksLe V V' → VotesLe V V' →
      (is_justified c V []).map Prod.fst = some true →
      (is_justified c V' []).map Prod.fst ≠ some false := by
  intro V V' c hwf hwf₁ hB hV htrue hcon
  obtain ⟨p₀, hC, hb₀⟩ := Option.map_eq_some'.mp htrue
  obtain ⟨p₁, hC₁, hb₁⟩ := Option.map_eq_some'.mp hcon
  obtain ⟨b₀, cch⟩ := p₀
  obtain ⟨b₁, cch₁⟩ := p₁
  dsimp only at hb₀ hb₁
  subst hb₀
  subst hb₁
  have hok : CacheOk V [] := by intro p hp; simp at hp
  have hok₁ : CacheOk V' [] := by intro p hp; simp at hp
  obtain ⟨⟨fV, hfV⟩, -⟩ := is_justifiedC_sound V (V.votes.length + 1) c [] true cch hC hok
  obtain ⟨⟨fW, hfW⟩, -⟩ :=
    is_justifiedC_sound V' (V'.votes.length + 1) c [] false cch₁ hC₁ hok₁
  have hL := blocks_length_le V V' hwf.1 hB
  exact absurd (is_justifiedF_le_mono V V' hB hV hL fW fV c false hfV hfW) (by simp)

/-- Witness for the amended C2 at a concrete input (`V = V' = monoView`). -/
theorem justified_monotonicity_amended_witness :
    (WellFormed monoView ∧ BlocksLe monoView monoView ∧ VotesLe monoView monoView ∧
      (is_justified monoCp monoView []).map Prod.fst = some true) ∧
    (is_justified monoCp monoView []).map Prod.fst ≠ some false :=
  ⟨⟨by decide, by decide, by decide, by decide⟩,
    justified_monotonicity_amended monoView monoView monoCp (by decide) (by decide)
      (by decide) (by decide) (by decide)⟩
